import Mathlib

/-!
# BatteryStatsService JNI: wakeup-reason parser and low-power-stats formatters

A shallow embedding of `services/core/jni/com_android_server_am_BatteryStatsService.cpp`.

* The destination buffer is addressed relative to its first byte: index `0` is
  `GetDirectBufferAddress(outBuf)`.  Memory is a total map on `Int`, so that a
  store before the buffer start or past its capacity is representable.
* `char*` cursors and `int` counters are `Int`.
* Text (`name.c_str()`, the characters `fgets` leaves in `reasonline`) is a
  `List Char` holding the characters before the C terminator.
-/

namespace BatteryStats

/-! ## Memory -/

/-- The C string terminator. -/
def NUL : Char := Char.ofNat 0

/-- Memory around the destination buffer.  `cells` is the content; `written`
records, oldest first, every index that was stored to, and `calls` records the
destination and size argument of every `snprintf` call. -/
structure Mem where
  cells : Int → Char
  written : List Int
  calls : List (Int × Nat)

/-- Memory before the call: given content, nothing stored or called yet. -/
def Mem.init (cells : Int → Char) : Mem := ⟨cells, [], []⟩

/-- The single store primitive, `*p = c`. -/
def Mem.store (m : Mem) (i : Int) (c : Char) : Mem :=
  { m with cells := fun k => if k = i then c else m.cells k, written := m.written ++ [i] }

/-- Store consecutive bytes starting at `dst`. -/
def Mem.storeBytes (m : Mem) (dst : Int) : List Char → Mem
  | [] => m
  | c :: cs => (m.store dst c).storeBytes (dst + 1) cs

/-- The `n` bytes found at `start`, `start + 1`, ... -/
def Mem.read (m : Mem) (start : Int) (n : Nat) : List Char :=
  (List.range n).map fun (k : Nat) => m.cells (start + (k : Int))

/-- C `snprintf(dst, size, fmt, ...)` where `s` is the full rendering of the
format: when `size` is positive it stores the first `size - 1` characters of `s`
(all of `s` if shorter) followed by the terminator, when `size` is zero it stores
nothing; it returns the length of the full rendering.  (The error return, a
negative value, arises only for renderings longer than `INT_MAX`; renderings are
taken below that size, so the result is never negative.) -/
def snprintf (m : Mem) (dst : Int) (size : Nat) (s : List Char) : Mem × Int :=
  let m1 : Mem := { m with calls := m.calls ++ [(dst, size)] }
  (if size = 0 then m1 else m1.storeBytes dst (s.take (size - 1) ++ [NUL]), (s.length : Int))

/-! ## printf conversions -/

/-- Conversions `%zu` and `%PRIu64`: unsigned decimal. -/
def fmtUnsigned (n : Nat) : List Char := Nat.toDigits 10 n

/-- Conversion `%d`. -/
def fmtInt (n : Int) : List Char :=
  if n < 0 then '-' :: Nat.toDigits 10 (-n).toNat else Nat.toDigits 10 n.toNat

/-! ## HAL records -/

/-- HAL `Status`. -/
inductive Status where
  | SUCCESS
  | FILESYSTEM_ERROR
  deriving DecidableEq

/-- HAL `PowerStateVoter`; the counters are `uint64_t`. -/
structure PowerStateVoter where
  name : List Char
  totalTimeInMsecVotedForSinceBoot : Nat
  totalNumberOfTimesVotedSinceBoot : Nat

/-- HAL `PowerStatePlatformSleepState`; the counters are `uint64_t`. -/
structure PowerStatePlatformSleepState where
  name : List Char
  residencyInMsecSinceBoot : Nat
  totalTransitions : Nat
  voters : List PowerStateVoter

/-- HAL `PowerStateSubsystemSleepState`; the counters are `uint64_t`. -/
structure PowerStateSubsystemSleepState where
  name : List Char
  residencyInMsecSinceBoot : Nat
  totalTransitions : Nat
  lastEntryTimestampMs : Nat

/-- HAL `PowerStateSubsystem`. -/
structure PowerStateSubsystem where
  name : List Char
  states : List PowerStateSubsystemSleepState

/-! ## getPlatformLowPowerStats -/

/-- The locals captured by the HAL callback, together with memory. -/
structure Fmt where
  mem : Mem
  offset : Int
  remaining : Int
  total_added : Int

/-- Rendering of `"state_%zu name=%s time=%" PRIu64 " count=%" PRIu64 " "`
with arguments `i + 1`, name, residency, transitions. -/
def platformStateText (i : Nat) (s : PowerStatePlatformSleepState) : List Char :=
  "state_".toList ++ fmtUnsigned (i + 1) ++ " name=".toList ++ s.name ++
    " time=".toList ++ fmtUnsigned s.residencyInMsecSinceBoot ++
    " count=".toList ++ fmtUnsigned s.totalTransitions ++ " ".toList

/-- Rendering of `"voter_%zu name=%s time=%" PRIu64 " count=%" PRIu64 " "`
with arguments `j + 1`, name, voted time, voted count. -/
def platformVoterText (j : Nat) (v : PowerStateVoter) : List Char :=
  "voter_".toList ++ fmtUnsigned (j + 1) ++ " name=".toList ++ v.name ++
    " time=".toList ++ fmtUnsigned v.totalTimeInMsecVotedForSinceBoot ++
    " count=".toList ++ fmtUnsigned v.totalNumberOfTimesVotedSinceBoot ++ " ".toList

/-- The inner loop `for (j = ...; j < state.voters.size(); j++)`, from index `j`
over the voters not yet visited. -/
def votersLoop (st : Fmt) (j : Nat) : List PowerStateVoter → Fmt
  | [] => st
  | voter :: rest =>
    let r := snprintf st.mem st.offset st.remaining.toNat (platformVoterText j voter)
    let added := r.2
    if added < 0 then
      { st with mem := r.1 }
    else
      let added := if added > st.remaining then st.remaining else added
      votersLoop
        { mem := r.1, offset := st.offset + added, remaining := st.remaining - added,
          total_added := st.total_added + added } (j + 1) rest

/-- The outer loop `for (i = ...; i < states.size(); i++)` of the callback, from
index `i` over the states not yet visited. -/
def statesLoop (st : Fmt) (i : Nat) : List PowerStatePlatformSleepState → Fmt
  | [] => st
  | state :: rest =>
    let r := snprintf st.mem st.offset st.remaining.toNat (platformStateText i state)
    let added := r.2
    if added < 0 then
      { st with mem := r.1 }
    else
      let added := if added > st.remaining then st.remaining else added
      let st1 : Fmt :=
        { mem := r.1, offset := st.offset + added, remaining := st.remaining - added,
          total_added := st.total_added + added }
      let st2 := votersLoop st1 0 state.voters
      if st2.remaining ≤ 0 then
        { st2 with offset := st2.offset - 1, total_added := st2.total_added - 1 }
      else
        statesLoop st2 (i + 1) rest

/-- The callback passed to `gPowerHal->getPlatformLowPowerStats`. -/
def platformCallback (st : Fmt) (states : List PowerStatePlatformSleepState)
    (status : Status) : Fmt :=
  if status ≠ Status.SUCCESS then st else statesLoop st 0 states

/-- What the JNI call hands back: the return value, memory afterwards, and
whether a Java exception was raised through `jniThrowException`. -/
structure JniResult where
  ret : Int
  mem : Mem
  threw : Bool

/-- What the power HAL does with the request: `notLoaded` when `getPowerHal()`
fails, `failed` when the transaction fails (`!ret.isOk()`, the callback is not
run), otherwise the record list and status handed to the callback. -/
inductive HalReply (α : Type) where
  | notLoaded
  | failed
  | delivered (records : List α) (status : Status)

/-- The function `getPlatformLowPowerStats`.  `outBuf` is `none` for a null
reference and `some capacity` for a direct buffer of that capacity. -/
def getPlatformLowPowerStats (m : Mem) (outBuf : Option Nat)
    (hal : HalReply PowerStatePlatformSleepState) : JniResult :=
  match outBuf with
  | none => { ret := -1, mem := m, threw := true }
  | some capacity =>
    let st0 : Fmt := { mem := m, offset := 0, remaining := (capacity : Int), total_added := -1 }
    match hal with
    | .notLoaded => { ret := -1, mem := m, threw := false }
    | .failed => { ret := -1, mem := m, threw := false }
    | .delivered states status =>
      let st := platformCallback st0 states status
      { ret := st.total_added + 1, mem := st.mem.store st.offset NUL, threw := false }

/-! ## getSubsystemLowPowerStats -/

/-- Rendering of `"subsystem_%zu name=%s "` with arguments `i + 1`, name. -/
def subsystemText (i : Nat) (s : PowerStateSubsystem) : List Char :=
  "subsystem_".toList ++ fmtUnsigned (i + 1) ++ " name=".toList ++ s.name ++ " ".toList

/-- Rendering of
`"state_%zu name=%s time=%" PRIu64 " count=%" PRIu64 " last entry TS(ms)=%" PRIu64 " "`
with arguments `j + 1`, name, residency, transitions, last entry timestamp. -/
def subsystemStateText (j : Nat) (s : PowerStateSubsystemSleepState) : List Char :=
  "state_".toList ++ fmtUnsigned (j + 1) ++ " name=".toList ++ s.name ++
    " time=".toList ++ fmtUnsigned s.residencyInMsecSinceBoot ++
    " count=".toList ++ fmtUnsigned s.totalTransitions ++
    " last entry TS(ms)=".toList ++ fmtUnsigned s.lastEntryTimestampMs ++ " ".toList

/-- The inner loop `for (j = ...; j < subsystem.states.size(); j++)`. -/
def subsystemStatesLoop (st : Fmt) (j : Nat) : List PowerStateSubsystemSleepState → Fmt
  | [] => st
  | state :: rest =>
    let r := snprintf st.mem st.offset st.remaining.toNat (subsystemStateText j state)
    let added := r.2
    if added < 0 then
      { st with mem := r.1 }
    else
      let added := if added > st.remaining then st.remaining else added
      subsystemStatesLoop
        { mem := r.1, offset := st.offset + added, remaining := st.remaining - added,
          total_added := st.total_added + added } (j + 1) rest

/-- The outer loop `for (i = ...; i < subsystems.size(); i++)` of the callback. -/
def subsystemsLoop (st : Fmt) (i : Nat) : List PowerStateSubsystem → Fmt
  | [] => st
  | subsystem :: rest =>
    let r := snprintf st.mem st.offset st.remaining.toNat (subsystemText i subsystem)
    let added := r.2
    if added < 0 then
      { st with mem := r.1 }
    else
      let added := if added > st.remaining then st.remaining else added
      let st1 : Fmt :=
        { mem := r.1, offset := st.offset + added, remaining := st.remaining - added,
          total_added := st.total_added + added }
      let st2 := subsystemStatesLoop st1 0 subsystem.states
      if st2.remaining ≤ 0 then
        { st2 with offset := st2.offset - 1, total_added := st2.total_added - 1 }
      else
        subsystemsLoop st2 (i + 1) rest

/-- The callback passed to `gPowerHal_1_1->getSubsystemLowPowerStats`. -/
def subsystemCallback (st : Fmt) (subsystems : List PowerStateSubsystem)
    (status : Status) : Fmt :=
  if status ≠ Status.SUCCESS then st else subsystemsLoop st 0 subsystems

/-- The function `getSubsystemLowPowerStats`.  `supports_1_1` tells whether
`IPower::castFrom(gPowerHal)` yields a 1.1 handle. -/
def getSubsystemLowPowerStats (m : Mem) (outBuf : Option Nat) (supports_1_1 : Bool)
    (hal : HalReply PowerStateSubsystem) : JniResult :=
  match outBuf with
  | none => { ret := -1, mem := m, threw := true }
  | some capacity =>
    let st0 : Fmt := { mem := m, offset := 0, remaining := (capacity : Int), total_added := -1 }
    match hal with
    | .notLoaded => { ret := -1, mem := m, threw := false }
    | .failed => if supports_1_1 then { ret := -1, mem := m, threw := false }
                 else { ret := 0, mem := m, threw := false }
    | .delivered subsystems status =>
      if supports_1_1 then
        let st := subsystemCallback st0 subsystems status
        { ret := st.total_added + 1, mem := st.mem.store st.offset NUL, threw := false }
      else { ret := 0, mem := m, threw := false }

/-! ## nativeWaitWakeup -/

/-- C `isspace` in the "C" locale. -/
def isspace (c : Char) : Bool :=
  c = ' ' || c = '\t' || c = '\n' || c = Char.ofNat 11 || c = Char.ofNat 12 || c = '\r'

/-- C `isdigit`. -/
def isdigit (c : Char) : Bool := '0'.toNat ≤ c.toNat && c.toNat ≤ '9'.toNat

/-- The number a run of decimal digits denotes. -/
def digitsValue (ds : List Char) : Nat :=
  ds.foldl (fun acc c => 10 * acc + (c.toNat - '0'.toNat)) 0

/-- `LONG_MAX` for a 64-bit `long`. -/
def LONG_MAX : Int := 2 ^ 63 - 1

/-- `LONG_MIN` for a 64-bit `long`. -/
def LONG_MIN : Int := -(2 ^ 63)

/-- C `strtol(s, &endPos, 10)`: skip white space, take an optional sign, then the
longest run of digits; the value saturates at `LONG_MIN` / `LONG_MAX`.  Returns
the value and `endPos - s`; when there is no digit no conversion is performed and
`endPos = s`, that is, the second component is `0`. -/
def strtol (s : List Char) : Int × Nat :=
  let ws := s.takeWhile isspace
  let s1 := s.dropWhile isspace
  let sign : Bool × Nat × List Char :=
    match s1 with
    | '-' :: r => (true, 1, r)
    | '+' :: r => (false, 1, r)
    | _ => (false, 0, s1)
  let ds := sign.2.2.takeWhile isdigit
  if ds = [] then (0, 0)
  else
    let v : Int := (digitsValue ds : Int)
    let v := if sign.1 then max (-v) LONG_MIN else min v LONG_MAX
    (v, ws.length + sign.2.1 + ds.length)

/-- The conversion `(int)` applied to a `long`: reduction to 32-bit two's
complement. -/
def toInt32 (v : Int) : Int := (v + 2 ^ 31) % 2 ^ 32 - 2 ^ 31

/-- The locals of the reading loop, together with memory. -/
structure Wake where
  mem : Mem
  mergedreasonpos : Int
  remainreasonlen : Int
  i : Nat

/-- The update `if (len >= 0 && len < remainreasonlen) { ... }` after an
`snprintf` that returned `r`. -/
def wakeAdvance (st : Wake) (r : Mem × Int) : Wake :=
  if 0 ≤ r.2 ∧ r.2 < st.remainreasonlen then
    { st with mem := r.1, mergedreasonpos := st.mergedreasonpos + r.2,
              remainreasonlen := st.remainreasonlen - r.2 }
  else
    { st with mem := r.1 }

/-- The body of `while (fgets(reasonline, sizeof(reasonline), fp) != NULL)` for
one line. -/
def wakeupLine (st : Wake) (reasonline : List Char) : Wake :=
  let conv := strtol reasonline
  let irq := toInt32 conv.1
  let first : Option ((Mem × Int) × Nat) :=
    if conv.2 ≠ 0 then
      some (snprintf st.mem st.mergedreasonpos st.remainreasonlen.toNat
              (if st.i = 0 then fmtInt irq else ':' :: fmtInt irq), conv.2)
    else if reasonline.take 6 ≠ "Abort:".toList then
      none
    else
      some (snprintf st.mem st.mergedreasonpos st.remainreasonlen.toNat
              (if st.i = 0 then "Abort".toList else ":Abort".toList), 6)
  match first with
  | none => st
  | some (r, endPos) =>
    let pos := reasonline.drop endPos
    let st1 := wakeAdvance st r
    let pos := pos.dropWhile (fun c => c = ' ')
    let pos := pos.takeWhile (fun c => c ≠ '\n')
    let r2 := snprintf st1.mem st1.mergedreasonpos st1.remainreasonlen.toNat (':' :: pos)
    let st2 := wakeAdvance st1 r2
    { st2 with i := st2.i + 1 }

/-- The whole reading loop over the lines `fgets` delivers. -/
def wakeupLoop (st : Wake) (lines : List (List Char)) : Wake :=
  lines.foldl wakeupLine st

/-- The wakeup-reason parser: the loop started at the buffer start with the
buffer capacity, then `if (i > 0) *mergedreasonpos = 0`; the value is
`mergedreasonpos - mergedreason`. -/
def wakeupParser (m : Mem) (capacity : Nat) (lines : List (List Char)) : Mem × Int :=
  let st := wakeupLoop { mem := m, mergedreasonpos := 0, remainreasonlen := (capacity : Int), i := 0 } lines
  (if st.i > 0 then st.mem.store st.mergedreasonpos NUL else st.mem, st.mergedreasonpos)

/-- C `fgets(buf, n + 1, fp)` on the unread part of the file: at most `n`
characters, stopping after a newline.  Returns the line and what is left unread. -/
def fgets : Nat → List Char → List Char × List Char
  | 0, file => ([], file)
  | _ + 1, [] => ([], [])
  | n + 1, c :: cs =>
    if c = '\n' then ([c], cs)
    else ((c :: (fgets n cs).1), (fgets n cs).2)

/-- The successive results of `fgets(reasonline, 128, fp)` until it returns
`NULL`; every call on a non-empty rest consumes a character, so as many rounds as
the file has characters suffice. -/
def fileLines : Nat → List Char → List (List Char)
  | 0, _ => []
  | fuel + 1, file =>
    if file = [] then [] else (fgets 127 file).1 :: fileLines fuel (fgets 127 file).2

/-- What surrounds the parser in `nativeWaitWakeup`. -/
structure WakeEnv where
  wakeup_init : Bool
  sem_init_ok : Bool
  sem_wait_ok : Bool
  file : Option (List Char)
  fclose_ok : Bool

/-- The function `nativeWaitWakeup`.  `outBuf` is `none` for a null reference
and `some capacity` for a direct buffer of that capacity; `env.file` is `none`
when `fopen` fails and otherwise the content of `LAST_RESUME_REASON`. -/
def nativeWaitWakeup (m : Mem) (outBuf : Option Nat) (env : WakeEnv) : JniResult :=
  match outBuf with
  | none => { ret := -1, mem := m, threw := true }
  | some capacity =>
    if !env.wakeup_init && !env.sem_init_ok then { ret := -1, mem := m, threw := true }
    else if !env.sem_wait_ok then { ret := 0, mem := m, threw := false }
    else
      match env.file with
      | none => { ret := -1, mem := m, threw := false }
      | some content =>
        let r := wakeupParser m capacity (fileLines content.length content)
        if !env.fclose_ok then { ret := -1, mem := r.1, threw := false }
        else { ret := r.2, mem := r.1, threw := false }

/-! ## The renderings as the specification words them -/

/-- The token `state_<i> name=<name> time=<residency> count=<transitions> `. -/
def stateToken (i : Nat) (s : PowerStatePlatformSleepState) : List Char :=
  "state_".toList ++ Nat.toDigits 10 i ++ " name=".toList ++ s.name ++ " time=".toList ++
    Nat.toDigits 10 s.residencyInMsecSinceBoot ++ " count=".toList ++
    Nat.toDigits 10 s.totalTransitions ++ [' ']

/-- The token `voter_<j> name=<name> time=<voted_time> count=<voted_count> `. -/
def voterToken (j : Nat) (v : PowerStateVoter) : List Char :=
  "voter_".toList ++ Nat.toDigits 10 j ++ " name=".toList ++ v.name ++ " time=".toList ++
    Nat.toDigits 10 v.totalTimeInMsecVotedForSinceBoot ++ " count=".toList ++
    Nat.toDigits 10 v.totalNumberOfTimesVotedSinceBoot ++ [' ']

/-- The rendering of a list of platform states whose first ordinal is `i`: each
state token followed by the tokens of its voters, numbered afresh from 1. -/
def platformRenderingFrom (i : Nat) (states : List PowerStatePlatformSleepState) : List Char :=
  ((states.enumFrom i).map fun p =>
    stateToken p.1 p.2 ++ ((p.2.voters.enumFrom 1).map fun q => voterToken q.1 q.2).flatten).flatten

/-- The full rendering of a platform record list, ordinals 1-based. -/
def platformRendering (states : List PowerStatePlatformSleepState) : List Char :=
  platformRenderingFrom 1 states

/-- The token `subsystem_<i> name=<name> `. -/
def subsystemToken (i : Nat) (s : PowerStateSubsystem) : List Char :=
  "subsystem_".toList ++ Nat.toDigits 10 i ++ " name=".toList ++ s.name ++ [' ']

/-- The token
`state_<j> name=<name> time=<residency> count=<transitions> last entry TS(ms)=<timestamp> `. -/
def subsystemStateToken (j : Nat) (s : PowerStateSubsystemSleepState) : List Char :=
  "state_".toList ++ Nat.toDigits 10 j ++ " name=".toList ++ s.name ++ " time=".toList ++
    Nat.toDigits 10 s.residencyInMsecSinceBoot ++ " count=".toList ++
    Nat.toDigits 10 s.totalTransitions ++ " last entry TS(ms)=".toList ++
    Nat.toDigits 10 s.lastEntryTimestampMs ++ [' ']

/-- The rendering of a list of subsystems whose first ordinal is `i`: each
subsystem token followed by the tokens of its states, numbered afresh from 1. -/
def subsystemRenderingFrom (i : Nat) (subsystems : List PowerStateSubsystem) : List Char :=
  ((subsystems.enumFrom i).map fun p =>
    subsystemToken p.1 p.2 ++
      ((p.2.states.enumFrom 1).map fun q => subsystemStateToken q.1 q.2).flatten).flatten

/-- The full rendering of a subsystem record list, ordinals 1-based. -/
def subsystemRendering (subsystems : List PowerStateSubsystem) : List Char :=
  subsystemRenderingFrom 1 subsystems

/-- A line is well-formed when it has a leading base-10 integer or begins with
the literal `Abort:`. -/
def wellFormed (line : List Char) : Bool :=
  (strtol line).2 ≠ 0 || line.take 6 = "Abort:".toList

/-- The reason text of a line: what follows the field, with the leading run of
spaces skipped, cut before the newline. -/
def reasonText (afterField : List Char) : List Char :=
  (afterField.dropWhile fun c => c = ' ').takeWhile fun c => c ≠ '\n'

/-- The entry `<irq-or-Abort>:<reason-text>` of a well-formed line. -/
def entryOf (line : List Char) : List Char :=
  if (strtol line).2 ≠ 0 then
    fmtInt (toInt32 (strtol line).1) ++ [':'] ++ reasonText (line.drop (strtol line).2)
  else
    "Abort".toList ++ [':'] ++ reasonText (line.drop 6)

/-- The merged reason string: the entries of the well-formed lines, in input
order, joined by `:`. -/
def mergedReason (lines : List (List Char)) : List Char :=
  List.intercalate [':'] ((lines.filter wellFormed).map entryOf)

/-! ## Token-level view of the formatter loops -/

/-- One formatting step: `snprintf` at the cursor, clip `added` to `remaining`,
advance the cursor and the counters. -/
def emit (st : Fmt) (t : List Char) : Fmt :=
  let r := snprintf st.mem st.offset st.remaining.toNat t
  let added := if r.2 > st.remaining then st.remaining else r.2
  { mem := r.1, offset := st.offset + added, remaining := st.remaining - added,
    total_added := st.total_added + added }

/-- The retraction `offset--; total_added--;`. -/
def retract (st : Fmt) : Fmt :=
  { st with offset := st.offset - 1, total_added := st.total_added - 1 }

/-- The outer loop seen over token groups: each group is the text of one
top-level record followed by the texts of its nested records. -/
def groupsLoop (st : Fmt) : List (List (List Char)) → Fmt
  | [] => st
  | g :: gs =>
    let st2 := g.foldl emit st
    if st2.remaining ≤ 0 then retract st2 else groupsLoop st2 gs

/-- Texts of the voters of one state, numbered from `j`. -/
def voterTexts (j : Nat) : List PowerStateVoter → List (List Char)
  | [] => []
  | v :: vs => platformVoterText j v :: voterTexts (j + 1) vs

/-- Token groups of a list of platform states, numbered from `i`. -/
def platformGroups (i : Nat) : List PowerStatePlatformSleepState → List (List (List Char))
  | [] => []
  | s :: ss => (platformStateText i s :: voterTexts 0 s.voters) :: platformGroups (i + 1) ss

/-- Texts of the states of one subsystem, numbered from `j`. -/
def subsystemStateTexts (j : Nat) : List PowerStateSubsystemSleepState → List (List Char)
  | [] => []
  | v :: vs => subsystemStateText j v :: subsystemStateTexts (j + 1) vs

/-- Token groups of a list of subsystems, numbered from `i`. -/
def subsystemGroups (i : Nat) : List PowerStateSubsystem → List (List (List Char))
  | [] => []
  | s :: ss => (subsystemText i s :: subsystemStateTexts 0 s.states) :: subsystemGroups (i + 1) ss

/-! ## Invariants of the formatting step -/

/-- Content invariant of the formatter for capacity `C` once the texts emitted so
far concatenate to `out`: the cursor is `min |out| C`, it and `remaining` add up
to `C`, and the buffer starts with the first `C - 1` characters of `out`. -/
structure Inv (C : Nat) (out : List Char) (st : Fmt) : Prop where
  offset_eq : st.offset = ((min out.length C : Nat) : Int)
  remaining_eq : st.remaining = (C : Int) - st.offset
  content : st.mem.read 0 (min out.length (C - 1)) = out.take (C - 1)

/-- Safety invariant of the formatter for capacity `C`. -/
structure Safe (C : Nat) (st : Fmt) : Prop where
  sum : st.offset + st.remaining = (C : Int)
  offset_nonneg : 0 ≤ st.offset
  remaining_nonneg : 0 ≤ st.remaining
  written_in : ∀ i ∈ st.mem.written, 0 ≤ i ∧ i < (C : Int)
  calls_ok : ∀ c ∈ st.mem.calls, c.1 + (c.2 : Int) = (C : Int) ∧ 0 ≤ c.1

/-! ## Token-level view of the parser loop -/

/-- One write of the parser: `snprintf` at the cursor, then the guarded advance. -/
def wemit (st : Wake) (t : List Char) : Wake :=
  wakeAdvance st (snprintf st.mem st.mergedreasonpos st.remainreasonlen.toNat t)

/-- The field text of a well-formed line: the decimal IRQ or `Abort`. -/
def fieldText (line : List Char) : List Char :=
  if (strtol line).2 ≠ 0 then fmtInt (toInt32 (strtol line).1) else "Abort".toList

/-- The rest of a well-formed line after its field. -/
def afterField (line : List Char) : List Char :=
  if (strtol line).2 ≠ 0 then line.drop (strtol line).2 else line.drop 6

/-- The two texts written for a well-formed line when `i` lines succeeded before. -/
def lineTokens (i : Nat) (line : List Char) : List (List Char) :=
  [if i = 0 then fieldText line else ':' :: fieldText line, ':' :: reasonText (afterField line)]

/-- All texts the loop writes, in order, when `i` lines succeeded before. -/
def wakeupTokens (i : Nat) : List (List Char) → List (List Char)
  | [] => []
  | l :: ls =>
    if wellFormed l then lineTokens i l ++ wakeupTokens (i + 1) ls else wakeupTokens i ls

/-- The texts that advance the cursor when the remaining capacity is `rem`: a
text is kept when its length is strictly below the remaining capacity at its
turn. -/
def keptTokens (rem : Int) : List (List Char) → List (List Char)
  | [] => []
  | t :: ts =>
    if (t.length : Int) < rem then t :: keptTokens (rem - t.length) ts else keptTokens rem ts

/-- Invariant of the parser for capacity `C` once the kept texts concatenate to
`acc`. -/
structure WInv (C : Nat) (acc : List Char) (st : Wake) : Prop where
  pos_eq : st.mergedreasonpos = (acc.length : Int)
  remain_eq : st.remainreasonlen = (C : Int) - (acc.length : Int)
  room : acc.length ≤ C
  content : st.mem.read 0 acc.length = acc

/-- Every recorded store and `snprintf` call of a formatter call stays within a
buffer of capacity `C`: each index stored to lies in `[0, C)`; at each `snprintf`
call the cursor is not before the buffer start and cursor plus size (the
remaining capacity, never negative) is `C`; and the last store, the final
terminator, is at the returned index, which is at most `C - 1`. -/
def WithinBuffer (C : Nat) (r : JniResult) : Prop :=
  (∀ i ∈ r.mem.written, 0 ≤ i ∧ i < (C : Int)) ∧
  (∀ c ∈ r.mem.calls, 0 ≤ c.1 ∧ c.1 + (c.2 : Int) = (C : Int)) ∧
  r.mem.written.getLast? = some r.ret ∧ r.ret ≤ (C : Int) - 1

/-! ## Sample inputs -/

/-- A voter record used in worked instances. -/
def sampleVoter : PowerStateVoter := ⟨"v".toList, 3, 4⟩

/-- A platform state with one voter; its rendering has 62 bytes. -/
def sampleState : PowerStatePlatformSleepState := ⟨"ab".toList, 10, 2, [sampleVoter]⟩

/-- A subsystem with one state. -/
def sampleSubsystem : PowerStateSubsystem := ⟨"modem".toList, [⟨"sleep".toList, 7, 1, 99⟩]⟩

/-- Memory filled with `x`, with nothing stored yet. -/
def blank : Mem := Mem.init fun _ => 'x'

/-! # Theorems -/

theorem votersLoop_eq (st : Fmt) (j : Nat) (vs : List PowerStateVoter) :
    votersLoop st j vs = (voterTexts j vs).foldl emit st := by
  induction vs generalizing st j with
  | nil => rfl
  | cons v vs ih =>
    simp only [votersLoop, voterTexts, List.foldl_cons]
    have h : ¬ (snprintf st.mem st.offset st.remaining.toNat (platformVoterText j v)).2 < 0 := by
      simp [snprintf]
    rw [if_neg h, ih]
    rfl

theorem statesLoop_eq (st : Fmt) (i : Nat) (ss : List PowerStatePlatformSleepState) :
    statesLoop st i ss = groupsLoop st (platformGroups i ss) := by
  induction ss generalizing st i with
  | nil => rfl
  | cons s ss ih =>
    simp only [statesLoop, platformGroups, groupsLoop, List.foldl_cons]
    have h : ¬ (snprintf st.mem st.offset st.remaining.toNat (platformStateText i s)).2 < 0 := by
      simp [snprintf]
    rw [if_neg h, votersLoop_eq]
    simp only [ih]
    rfl

theorem subsystemStatesLoop_eq (st : Fmt) (j : Nat) (vs : List PowerStateSubsystemSleepState) :
    subsystemStatesLoop st j vs = (subsystemStateTexts j vs).foldl emit st := by
  induction vs generalizing st j with
  | nil => rfl
  | cons v vs ih =>
    simp only [subsystemStatesLoop, subsystemStateTexts, List.foldl_cons]
    have h : ¬ (snprintf st.mem st.offset st.remaining.toNat (subsystemStateText j v)).2 < 0 := by
      simp [snprintf]
    rw [if_neg h, ih]
    rfl

theorem subsystemsLoop_eq (st : Fmt) (i : Nat) (ss : List PowerStateSubsystem) :
    subsystemsLoop st i ss = groupsLoop st (subsystemGroups i ss) := by
  induction ss generalizing st i with
  | nil => rfl
  | cons s ss ih =>
    simp only [subsystemsLoop, subsystemGroups, groupsLoop, List.foldl_cons]
    have h : ¬ (snprintf st.mem st.offset st.remaining.toNat (subsystemText i s)).2 < 0 := by
      simp [snprintf]
    rw [if_neg h, subsystemStatesLoop_eq]
    simp only [ih]
    rfl

/-! ## Memory lemmas -/

theorem Mem.length_read (m : Mem) (s : Int) (n : Nat) : (m.read s n).length = n := by
  simp [Mem.read]

theorem Mem.read_congr {m1 m2 : Mem} {s : Int} {n : Nat}
    (h : ∀ k, s ≤ k → k < s + n → m1.cells k = m2.cells k) : m1.read s n = m2.read s n := by
  simp only [Mem.read, List.map_inj_left, List.mem_range]
  intro k hk
  exact h _ (by omega) (by omega)

theorem Mem.read_succ (m : Mem) (s : Int) (n : Nat) :
    m.read s (n + 1) = m.cells s :: m.read (s + 1) n := by
  simp only [Mem.read, List.range_succ_eq_map, List.map_cons, List.map_map]
  refine congrArg₂ _ (by simp) ?_
  apply List.map_congr_left
  intro k _
  simp only [Function.comp, Nat.succ_eq_add_one]
  congr 1
  push_cast
  omega

theorem Mem.read_succ_last (m : Mem) (s : Int) (n : Nat) :
    m.read s (n + 1) = m.read s n ++ [m.cells (s + n)] := by
  simp [Mem.read, List.range_succ]

theorem Mem.read_add (m : Mem) (s : Int) (a b : Nat) :
    m.read s (a + b) = m.read s a ++ m.read (s + a) b := by
  induction a generalizing s with
  | zero => simp [Mem.read]
  | succ a ih =>
    rw [show a + 1 + b = (a + b) + 1 by omega, Mem.read_succ, Mem.read_succ, ih]
    simp only [List.cons_append]
    congr 3
    push_cast
    omega

theorem Mem.cells_storeBytes_outside (m : Mem) (d : Int) (bs : List Char) (k : Int)
    (h : k < d ∨ d + bs.length ≤ k) : (m.storeBytes d bs).cells k = m.cells k := by
  induction bs generalizing m d with
  | nil => rfl
  | cons c cs ih =>
    simp only [Mem.storeBytes]
    rw [ih]
    · simp only [Mem.store]
      have : k ≠ d := by
        simp only [List.length_cons] at h
        push_cast at h
        omega
      simp [this]
    · simp only [List.length_cons] at h
      push_cast at h
      omega

theorem Mem.read_storeBytes_self (m : Mem) (d : Int) (bs : List Char) :
    (m.storeBytes d bs).read d bs.length = bs := by
  induction bs generalizing m d with
  | nil => rfl
  | cons c cs ih =>
    simp only [Mem.storeBytes, List.length_cons, Mem.read_succ, ih]
    congr 1
    rw [Mem.cells_storeBytes_outside _ _ _ _ (Or.inl (by omega))]
    simp [Mem.store]

theorem Mem.storeBytes_append (m : Mem) (d : Int) (a b : List Char) :
    m.storeBytes d (a ++ b) = (m.storeBytes d a).storeBytes (d + a.length) b := by
  induction a generalizing m d with
  | nil => simp [Mem.storeBytes]
  | cons c cs ih =>
    show (m.store d c).storeBytes (d + 1) (cs ++ b)
      = ((m.store d c).storeBytes (d + 1) cs).storeBytes (d + ((cs.length + 1 : Nat) : Int)) b
    rw [ih]
    congr 1
    push_cast
    ring

theorem Mem.read_storeBytes_head (m : Mem) (d : Int) (a b : List Char) :
    (m.storeBytes d (a ++ b)).read d a.length = a := by
  rw [Mem.storeBytes_append]
  refine Eq.trans (Mem.read_congr ?_) (Mem.read_storeBytes_self m d a)
  intro k _ h2
  exact Mem.cells_storeBytes_outside _ _ _ _ (Or.inl h2)

theorem Mem.written_storeBytes (m : Mem) (d : Int) (bs : List Char) :
    ∀ i ∈ (m.storeBytes d bs).written, i ∈ m.written ∨ (d ≤ i ∧ i < d + bs.length) := by
  induction bs generalizing m d with
  | nil => intro i hi; exact Or.inl hi
  | cons c cs ih =>
    intro i hi
    simp only [Mem.storeBytes] at hi
    rcases ih _ _ i hi with h | h
    · simp only [Mem.store, List.mem_append, List.mem_singleton] at h
      rcases h with h | h
      · exact Or.inl h
      · right
        simp only [List.length_cons]
        push_cast
        omega
    · right
      simp only [List.length_cons]
      push_cast
      omega

theorem Mem.calls_storeBytes (m : Mem) (d : Int) (bs : List Char) :
    (m.storeBytes d bs).calls = m.calls := by
  induction bs generalizing m d with
  | nil => rfl
  | cons c cs ih => simp only [Mem.storeBytes, ih]; rfl

/-! ## What one `snprintf` call does to memory -/

theorem snprintf_ret (m : Mem) (d : Int) (size : Nat) (s : List Char) :
    (snprintf m d size s).2 = (s.length : Int) := rfl

theorem snprintf_calls (m : Mem) (d : Int) (size : Nat) (s : List Char) :
    (snprintf m d size s).1.calls = m.calls ++ [(d, size)] := by
  unfold snprintf
  by_cases h : size = 0
  · simp [h]
  · simp [h, Mem.calls_storeBytes]

theorem snprintf_cells_outside (m : Mem) (d : Int) (size : Nat) (s : List Char) (k : Int)
    (h : k < d ∨ d + size ≤ k) : (snprintf m d size s).1.cells k = m.cells k := by
  unfold snprintf
  by_cases h0 : size = 0
  · simp [h0]
  · simp only [h0, if_false]
    rw [Mem.cells_storeBytes_outside]
    rcases h with h | h
    · exact Or.inl h
    · right
      simp only [List.length_append, List.length_take, List.length_singleton]
      push_cast
      omega

theorem snprintf_read_head (m : Mem) (d : Int) (size : Nat) (s : List Char)
    (h : 0 < size) :
    (snprintf m d size s).1.read d (min s.length (size - 1)) = s.take (size - 1) := by
  unfold snprintf
  have h0 : size ≠ 0 := by omega
  simp only [h0, if_false]
  have hl : (s.take (size - 1)).length = min s.length (size - 1) := by
    simp [List.length_take, Nat.min_comm]
  rw [← hl]
  exact Mem.read_storeBytes_head _ _ _ _

theorem snprintf_terminator (m : Mem) (d : Int) (size : Nat) (s : List Char)
    (h : 0 < size) :
    (snprintf m d size s).1.cells (d + (min s.length (size - 1) : Nat)) = NUL := by
  unfold snprintf
  have h0 : size ≠ 0 := by omega
  simp only [h0, if_false]
  have hl : (s.take (size - 1)).length = min s.length (size - 1) := by
    simp [List.length_take, Nat.min_comm]
  rw [← hl, Mem.storeBytes_append]
  simp [Mem.storeBytes, Mem.store]

theorem snprintf_written (m : Mem) (d : Int) (size : Nat) (s : List Char) :
    ∀ i ∈ (snprintf m d size s).1.written, i ∈ m.written ∨ (d ≤ i ∧ i < d + size) := by
  unfold snprintf
  by_cases h0 : size = 0
  · simp only [h0, if_true]
    intro i hi
    exact Or.inl hi
  · simp only [h0, if_false]
    intro i hi
    rcases Mem.written_storeBytes _ _ _ i hi with h | h
    · exact Or.inl h
    · right
      simp only [List.length_append, List.length_take, List.length_singleton] at h
      push_cast at h
      omega

/-! ## The formatting step -/

theorem emit_offset (st : Fmt) (t : List Char) :
    (emit st t).offset = st.offset + min (t.length : Int) st.remaining := by
  simp only [emit, snprintf_ret]
  split_ifs <;> omega

theorem emit_remaining (st : Fmt) (t : List Char) :
    (emit st t).remaining = st.remaining - min (t.length : Int) st.remaining := by
  simp only [emit, snprintf_ret]
  split_ifs <;> omega

theorem emit_total (st : Fmt) (t : List Char) :
    (emit st t).total_added - (emit st t).offset = st.total_added - st.offset := by
  simp only [emit, snprintf_ret]
  split_ifs <;> omega

theorem emit_mem (st : Fmt) (t : List Char) :
    (emit st t).mem = (snprintf st.mem st.offset st.remaining.toNat t).1 := rfl

theorem emit_inv {C : Nat} {out : List Char} {st : Fmt} (t : List Char)
    (h : Inv C out st) : Inv C (out ++ t) (emit st t) := by
  obtain ⟨ho, hr, hc⟩ := h
  by_cases hlt : out.length < C
  · have hmin : min out.length C = out.length := by omega
    have hmin1 : min out.length (C - 1) = out.length := by omega
    rw [hmin] at ho
    rw [hmin1] at hc
    have hsz : st.remaining.toNat = C - out.length := by omega
    refine ⟨?_, ?_, ?_⟩
    · rw [emit_offset, List.length_append]
      omega
    · rw [emit_offset, emit_remaining]
      omega
    · have e1 : min (out ++ t).length (C - 1)
          = out.length + min t.length (st.remaining.toNat - 1) := by
        rw [List.length_append]
        omega
      rw [e1, Mem.read_add, List.take_append_eq_append_take, emit_mem]
      congr 1
      · refine Eq.trans (Mem.read_congr ?_) hc
        intro k _ hk
        apply snprintf_cells_outside
        left
        omega
      · have := snprintf_read_head st.mem st.offset st.remaining.toNat t (by omega)
        rw [show (0 : Int) + (out.length : Int) = st.offset by omega,
          show C - 1 - out.length = st.remaining.toNat - 1 by omega]
        exact this
  · have hmin : min out.length C = C := by omega
    rw [hmin] at ho
    have hsz : st.remaining.toNat = 0 := by omega
    refine ⟨?_, ?_, ?_⟩
    · rw [emit_offset, List.length_append]
      omega
    · rw [emit_offset, emit_remaining]
      omega
    · have e1 : min (out ++ t).length (C - 1) = min out.length (C - 1) := by
        rw [List.length_append]
        omega
      rw [e1, List.take_append_of_le_length (by omega), ← hc, emit_mem]
      apply Mem.read_congr
      intro k _ hk
      apply snprintf_cells_outside
      left
      omega

theorem emit_safe {C : Nat} {st : Fmt} (t : List Char) (h : Safe C st) :
    Safe C (emit st t) := by
  obtain ⟨hs, ho, hr, hw, hcalls⟩ := h
  refine ⟨?_, ?_, ?_, ?_, ?_⟩
  · rw [emit_offset, emit_remaining]
    omega
  · rw [emit_offset]
    omega
  · rw [emit_remaining]
    omega
  · intro i hi
    rw [emit_mem] at hi
    rcases snprintf_written _ _ _ _ i hi with h | h
    · exact hw i h
    · omega
  · intro c hc
    rw [emit_mem, snprintf_calls, List.mem_append, List.mem_singleton] at hc
    rcases hc with h | h
    · exact hcalls c h
    · subst h
      simp only
      omega

theorem foldl_emit_inv {C : Nat} {out : List Char} {st : Fmt} (ts : List (List Char))
    (h : Inv C out st) : Inv C (out ++ ts.flatten) (ts.foldl emit st) := by
  induction ts generalizing out st with
  | nil => simpa using h
  | cons t ts ih =>
    have := ih (emit_inv t h)
    simpa [List.append_assoc] using this

theorem foldl_emit_safe {C : Nat} {st : Fmt} (ts : List (List Char))
    (h : Safe C st) : Safe C (ts.foldl emit st) := by
  induction ts generalizing st with
  | nil => exact h
  | cons t ts ih => exact ih (emit_safe t h)

theorem foldl_emit_total (st : Fmt) (ts : List (List Char)) :
    (ts.foldl emit st).total_added - (ts.foldl emit st).offset
      = st.total_added - st.offset := by
  induction ts generalizing st with
  | nil => rfl
  | cons t ts ih => rw [List.foldl_cons, ih, emit_total]

/-! ## The outer loop -/

theorem retract_total (st : Fmt) :
    (retract st).total_added - (retract st).offset = st.total_added - st.offset := by
  simp only [retract]
  omega

theorem groupsLoop_total (st : Fmt) (gs : List (List (List Char))) :
    (groupsLoop st gs).total_added - (groupsLoop st gs).offset
      = st.total_added - st.offset := by
  induction gs generalizing st with
  | nil => rfl
  | cons g gs ih =>
    simp only [groupsLoop]
    split_ifs
    · rw [retract_total, foldl_emit_total]
    · rw [ih, foldl_emit_total]

theorem groupsLoop_content {C : Nat} {out : List Char} {st : Fmt}
    (gs : List (List (List Char))) (h : Inv C out st) (hlt : out.length < C) :
    (groupsLoop st gs).offset = ((min (out ++ gs.flatten.flatten).length (C - 1) : Nat) : Int) ∧
    (groupsLoop st gs).mem.read 0 (min (out ++ gs.flatten.flatten).length (C - 1))
      = (out ++ gs.flatten.flatten).take (C - 1) := by
  induction gs generalizing out st with
  | nil =>
    obtain ⟨ho, _, hc⟩ := h
    have e : min out.length (C - 1) = out.length := by omega
    simp only [groupsLoop, List.flatten_nil, List.append_nil, e]
    rw [e] at hc
    exact ⟨by rw [ho]; congr 1; omega, hc⟩
  | cons g gs ih =>
    have h2 := foldl_emit_inv g h
    simp only [groupsLoop, List.flatten_cons, List.flatten_append, ← List.append_assoc]
    split_ifs with hrem
    · obtain ⟨ho, hr, hc⟩ := h2
      have hfull : C ≤ (out ++ g.flatten).length := by omega
      have e1 : min (out ++ g.flatten ++ gs.flatten.flatten).length (C - 1) = C - 1 := by
        rw [List.length_append]
        omega
      have e2 : min (out ++ g.flatten).length (C - 1) = C - 1 := by omega
      rw [e1, List.take_append_of_le_length (by omega)]
      rw [e2] at hc
      refine ⟨?_, hc⟩
      simp only [retract]
      omega
    · have hlt2 : (out ++ g.flatten).length < C := by
        obtain ⟨ho, hr, _⟩ := h2
        omega
      exact ih h2 hlt2

theorem groupsLoop_stop {C : Nat} {out : List Char} {st : Fmt}
    (P : List (List (List Char))) (g : List (List Char)) (R : List (List (List Char)))
    (h : Inv C out st) (hfull : C ≤ (out ++ (P ++ [g]).flatten.flatten).length) :
    groupsLoop st (P ++ g :: R) = groupsLoop st (P ++ [g]) := by
  induction P generalizing out st with
  | nil =>
    have h2 := foldl_emit_inv g h
    obtain ⟨ho, hr, _⟩ := h2
    simp only [List.nil_append, List.flatten_cons, List.flatten_nil, List.append_nil] at hfull
    have : (g.foldl emit st).remaining ≤ 0 := by omega
    simp [groupsLoop, this]
  | cons p P ih =>
    have h2 := foldl_emit_inv p h
    simp only [List.cons_append, groupsLoop]
    split_ifs
    · rfl
    · apply ih h2
      simpa [List.append_assoc] using hfull

theorem groupsLoop_safe {C : Nat} {st : Fmt} (gs : List (List (List Char)))
    (h : Safe C st) (hpos : 0 < st.remaining) :
    (∀ i ∈ (groupsLoop st gs).mem.written, 0 ≤ i ∧ i < (C : Int)) ∧
    (∀ c ∈ (groupsLoop st gs).mem.calls, c.1 + (c.2 : Int) = (C : Int) ∧ 0 ≤ c.1) ∧
    0 ≤ (groupsLoop st gs).offset ∧ (groupsLoop st gs).offset < (C : Int) := by
  induction gs generalizing st with
  | nil =>
    obtain ⟨hs, ho, hr, hw, hc⟩ := h
    exact ⟨hw, hc, ho, by simp only [groupsLoop]; omega⟩
  | cons g gs ih =>
    have h2 := foldl_emit_safe g h
    have hC : 1 ≤ (C : Int) := by
      obtain ⟨hs, ho, _, _, _⟩ := h
      omega
    simp only [groupsLoop]
    split_ifs with hrem
    · obtain ⟨hs, ho, hr, hw, hc⟩ := h2
      refine ⟨hw, hc, ?_, ?_⟩ <;> simp only [retract] <;> omega
    · exact ih h2 (by omega)

/-! ## Memory after the final store -/

theorem Mem.cells_store_self (m : Mem) (i : Int) (c : Char) : (m.store i c).cells i = c := by
  simp [Mem.store]

theorem Mem.read_store_before (m : Mem) (i : Int) (c : Char) (s : Int) (n : Nat)
    (h : s + n ≤ i) : (m.store i c).read s n = m.read s n := by
  apply Mem.read_congr
  intro k _ hk
  have : k ≠ i := by omega
  simp [Mem.store, this]

theorem Mem.read_store_end (m : Mem) (n : Nat) (c : Char) :
    (m.store (n : Int) c).read 0 (n + 1) = m.read 0 n ++ [c] := by
  rw [Mem.read_add, Mem.read_store_before _ _ _ _ _ (by omega)]
  congr 1
  rw [Mem.read_succ]
  simp [Mem.read, Mem.store]

/-- The initial formatter state satisfies the content invariant. -/
theorem inv_init (m : Mem) (C : Nat) :
    Inv C [] { mem := m, offset := 0, remaining := (C : Int), total_added := -1 } := by
  refine ⟨by simp, by simp, by simp [Mem.read]⟩

/-! ## The platform formatter against the worded rendering -/

theorem platformStateText_eq (i : Nat) (s : PowerStatePlatformSleepState) :
    platformStateText i s = stateToken (i + 1) s := rfl

theorem platformVoterText_eq (j : Nat) (v : PowerStateVoter) :
    platformVoterText j v = voterToken (j + 1) v := rfl

theorem voterTexts_flatten (j : Nat) (vs : List PowerStateVoter) :
    (voterTexts j vs).flatten
      = ((vs.enumFrom (j + 1)).map fun q => voterToken q.1 q.2).flatten := by
  induction vs generalizing j with
  | nil => rfl
  | cons v vs ih =>
    simp only [voterTexts, List.flatten_cons, List.enumFrom_cons, List.map_cons, ih,
      platformVoterText_eq]

theorem platformGroups_flatten (i : Nat) (ss : List PowerStatePlatformSleepState) :
    (platformGroups i ss).flatten.flatten = platformRenderingFrom (i + 1) ss := by
  induction ss generalizing i with
  | nil => rfl
  | cons s ss ih =>
    simp only [platformGroups, List.flatten_cons, List.flatten_append, ih, platformRenderingFrom,
      List.enumFrom_cons, List.map_cons, voterTexts_flatten, platformStateText_eq,
      List.append_assoc]

theorem platformGroups_append (i : Nat) (a b : List PowerStatePlatformSleepState) :
    platformGroups i (a ++ b) = platformGroups i a ++ platformGroups (i + a.length) b := by
  induction a generalizing i with
  | nil => rfl
  | cons s a ih =>
    have e : i + (s :: a).length = i + 1 + a.length := by
      simp only [List.length_cons]
      omega
    rw [e]
    show _ :: platformGroups (i + 1) (a ++ b) = _
    rw [ih]
    rfl

/-- The result of a delivered, successful platform call for capacity at least 1:
the return value is `min L (C - 1)`, and the buffer holds the first `C - 1`
characters of the rendering followed by the terminator. -/
theorem platform_result (m : Mem) (C : Nat) (hC : 1 ≤ C)
    (states : List PowerStatePlatformSleepState) :
    (getPlatformLowPowerStats m (some C) (.delivered states Status.SUCCESS)).ret
      = ((min (platformRendering states).length (C - 1) : Nat) : Int) ∧
    (getPlatformLowPowerStats m (some C) (.delivered states Status.SUCCESS)).mem.read 0
        (min (platformRendering states).length (C - 1) + 1)
      = (platformRendering states).take (C - 1) ++ [NUL] := by
  have hc := groupsLoop_content (platformGroups 0 states) (inv_init m C)
    (by simp only [List.length_nil]; omega)
  have ht := groupsLoop_total
    { mem := m, offset := 0, remaining := (C : Int), total_added := -1 } (platformGroups 0 states)
  simp only [List.nil_append, platformGroups_flatten, Nat.zero_add] at hc
  simp only at ht
  simp only [getPlatformLowPowerStats, platformCallback, statesLoop_eq, ne_eq, not_true,
    if_false, platformRendering]
  obtain ⟨ho, hread⟩ := hc
  constructor
  · omega
  · rw [ho, Mem.read_store_end, hread]

/-! ## Claims about getPlatformLowPowerStats -/

/-- C1: for a record list delivered with SUCCESS and a capacity `C` strictly
greater than the length `L` of the full rendering, the buffer holds exactly the
full rendering (state tokens `state_<i> name=.. time=.. count=.. ` each followed
by its voter tokens `voter_<j> name=.. time=.. count=.. `, ordinals 1-based, in
input order, numbers in unsigned decimal) followed by a terminator. -/
theorem getPlatformLowPowerStats_full_rendering (m : Mem) (C : Nat)
    (states : List PowerStatePlatformSleepState)
    (hC : (platformRendering states).length < C) :
    (getPlatformLowPowerStats m (some C) (.delivered states Status.SUCCESS)).mem.read 0
        ((platformRendering states).length + 1)
      = platformRendering states ++ [NUL] := by
  have h := (platform_result m C (by omega) states).2
  rw [show min (platformRendering states).length (C - 1) = (platformRendering states).length
    by omega, List.take_of_length_le (by omega)] at h
  exact h

/-- C2: for a capacity `C` with `1 ≤ C < L`, the buffer holds exactly the first
`C - 1` bytes of the full rendering followed by a terminator at index `C - 1`,
and the outcome (memory, stores and `snprintf` calls included) is that of the
call on the list cut after the state during which the capacity ran out: no later
state is processed. -/
theorem getPlatformLowPowerStats_truncated (m : Mem) (C : Nat)
    (states : List PowerStatePlatformSleepState)
    (h1 : 1 ≤ C) (h2 : C < (platformRendering states).length) :
    (getPlatformLowPowerStats m (some C) (.delivered states Status.SUCCESS)).mem.read 0 C
      = (platformRendering states).take (C - 1) ++ [NUL] ∧
    (getPlatformLowPowerStats m (some C) (.delivered states Status.SUCCESS)).mem.cells
      ((C : Int) - 1) = NUL ∧
    ∀ (pre : List PowerStatePlatformSleepState) (s : PowerStatePlatformSleepState)
      (rest : List PowerStatePlatformSleepState),
      states = pre ++ s :: rest →
      (platformRendering pre).length < C →
      C ≤ (platformRendering (pre ++ [s])).length →
      getPlatformLowPowerStats m (some C) (.delivered states Status.SUCCESS)
        = getPlatformLowPowerStats m (some C) (.delivered (pre ++ [s]) Status.SUCCESS) := by
  have h := (platform_result m C h1 states).2
  rw [show min (platformRendering states).length (C - 1) + 1 = C by omega] at h
  refine ⟨h, ?_, ?_⟩
  · obtain ⟨n, rfl⟩ : ∃ n, C = n + 1 := ⟨C - 1, by omega⟩
    have hlast := h
    rw [Mem.read_succ_last] at hlast
    have hcell := List.append_inj_right' hlast rfl
    simpa using hcell
  · intro pre s rest hst _ hfull
    subst hst
    have e1 : platformGroups 0 (pre ++ s :: rest)
        = platformGroups 0 pre ++
          (platformStateText (0 + pre.length) s :: voterTexts 0 s.voters)
            :: platformGroups (0 + pre.length + 1) rest := by
      rw [platformGroups_append]
      rfl
    have e2 : platformGroups 0 (pre ++ [s])
        = platformGroups 0 pre ++
          [platformStateText (0 + pre.length) s :: voterTexts 0 s.voters] := by
      rw [platformGroups_append]
      rfl
    have hstop := groupsLoop_stop (platformGroups 0 pre)
      (platformStateText (0 + pre.length) s :: voterTexts 0 s.voters)
      (platformGroups (0 + pre.length + 1) rest) (inv_init m C)
      (by
        rw [← e2, platformGroups_flatten]
        simpa [platformRendering] using hfull)
    simp only [getPlatformLowPowerStats, platformCallback, statesLoop_eq, ne_eq, not_true,
      if_false, e1, e2, hstop]

set_option maxRecDepth 8000 in
/-- Witness for C2: two sample states (rendering of 124 bytes) into a buffer of
40 bytes; the capacity runs out during the first state and the second one is not
processed. -/
theorem getPlatformLowPowerStats_truncated_witness :
    (getPlatformLowPowerStats blank (some 40)
        (.delivered [sampleState, sampleState] Status.SUCCESS)).mem.read 0 40
      = "state_1 name=ab time=10 count=2 voter_1".toList ++ [NUL] ∧
    getPlatformLowPowerStats blank (some 40) (.delivered [sampleState, sampleState] Status.SUCCESS)
      = getPlatformLowPowerStats blank (some 40) (.delivered [sampleState] Status.SUCCESS) :=
  ⟨(getPlatformLowPowerStats_truncated blank 40 [sampleState, sampleState]
      (by decide) (by decide)).1,
   (getPlatformLowPowerStats_truncated blank 40 [sampleState, sampleState]
      (by decide) (by decide)).2.2 [] sampleState [sampleState] rfl (by decide) (by decide)⟩

/-- Witness for C1: the sample state into a buffer of 64 bytes. -/
theorem getPlatformLowPowerStats_full_rendering_witness :
    (getPlatformLowPowerStats blank (some 64)
        (.delivered [sampleState] Status.SUCCESS)).mem.read 0 63
      = "state_1 name=ab time=10 count=2 voter_1 name=v time=3 count=4 ".toList ++ [NUL] :=
  getPlatformLowPowerStats_full_rendering blank 64 [sampleState] (by decide)

/-- A status other than SUCCESS: the callback returns at once. -/
theorem platform_result_failure (m : Mem) (C : Nat)
    (states : List PowerStatePlatformSleepState) (status : Status)
    (h : status ≠ Status.SUCCESS) :
    getPlatformLowPowerStats m (some C) (.delivered states status)
      = { ret := 0, mem := m.store 0 NUL, threw := false } := by
  simp [getPlatformLowPowerStats, platformCallback, h]

/-- C3, counterexample: a SUCCESS response with zero records into a buffer of
16 bytes does not return 1. -/
theorem getPlatformLowPowerStats_return_counterexample :
    ¬ (getPlatformLowPowerStats blank (some 16) (.delivered [] Status.SUCCESS)).ret = 1 := by
  decide

/-- C3, amended: for capacity at least 1 the value returned on success is the
number of payload bytes, the terminator not counted: it is the index at which the
terminator stands, the bytes before it are that many leading bytes of the
rendering, and for zero records it is exactly 0. -/
theorem getPlatformLowPowerStats_return_payload (m : Mem) (C : Nat)
    (states : List PowerStatePlatformSleepState) (hC : 1 ≤ C) :
    0 ≤ (getPlatformLowPowerStats m (some C) (.delivered states Status.SUCCESS)).ret ∧
    (getPlatformLowPowerStats m (some C) (.delivered states Status.SUCCESS)).mem.cells
      (getPlatformLowPowerStats m (some C) (.delivered states Status.SUCCESS)).ret = NUL ∧
    (getPlatformLowPowerStats m (some C) (.delivered states Status.SUCCESS)).mem.read 0
      (getPlatformLowPowerStats m (some C) (.delivered states Status.SUCCESS)).ret.toNat
      = (platformRendering states).take
          (getPlatformLowPowerStats m (some C) (.delivered states Status.SUCCESS)).ret.toNat ∧
    (getPlatformLowPowerStats m (some C) (.delivered [] Status.SUCCESS)).ret = 0 := by
  obtain ⟨hret, hread⟩ := platform_result m C hC states
  rw [Mem.read_succ_last] at hread
  have hcell := List.append_inj_right' hread rfl
  have hpre := List.append_inj_left' hread rfl
  rw [hret]
  refine ⟨by omega, by simpa using hcell, ?_, ?_⟩
  · rw [Int.toNat_ofNat, hpre, Nat.min_comm, ← List.take_take,
      List.take_of_length_le (Nat.le_refl _)]
  · have := (platform_result m C hC []).1
    simpa [platformRendering, platformRenderingFrom] using this

/-- Witness for C3, amended: the sample state into a buffer of 64 bytes returns
62, the length of its rendering. -/
theorem getPlatformLowPowerStats_return_payload_witness :
    (getPlatformLowPowerStats blank (some 64) (.delivered [sampleState] Status.SUCCESS)).mem.cells
      (getPlatformLowPowerStats blank (some 64) (.delivered [sampleState] Status.SUCCESS)).ret
      = NUL ∧
    (getPlatformLowPowerStats blank (some 64) (.delivered [sampleState] Status.SUCCESS)).ret = 62 :=
  ⟨(getPlatformLowPowerStats_return_payload blank 64 [sampleState] (by decide)).2.1, by decide⟩

/-! ## Safety of both formatters -/

theorem safe_init (cells : Int → Char) (C : Nat) :
    Safe C { mem := Mem.init cells, offset := 0, remaining := (C : Int), total_added := -1 } :=
  ⟨by simp, by simp, by simp, by simp [Mem.init], by simp [Mem.init]⟩

theorem groupsLoop_within (cells : Int → Char) (C : Nat) (hC : 1 ≤ C)
    (gs : List (List (List Char))) (st : Fmt)
    (hst : st = groupsLoop
      { mem := Mem.init cells, offset := 0, remaining := (C : Int), total_added := -1 } gs) :
    WithinBuffer C { ret := st.total_added + 1, mem := st.mem.store st.offset NUL, threw := false } := by
  have hs := groupsLoop_safe gs (safe_init cells C) (by simp only; omega)
  have ht := groupsLoop_total
    { mem := Mem.init cells, offset := 0, remaining := (C : Int), total_added := -1 } gs
  rw [← hst] at hs ht
  simp only at ht
  obtain ⟨hw, hc, ho1, ho2⟩ := hs
  refine ⟨?_, ?_, ?_, ?_⟩
  · intro i hi
    simp only [Mem.store, List.mem_append, List.mem_singleton] at hi
    rcases hi with h | h
    · exact hw i h
    · omega
  · intro c hcm
    have := hc c (by simpa [Mem.store] using hcm)
    exact ⟨this.2, this.1⟩
  · simp only [Mem.store, List.getLast?_append, List.getLast?_singleton, Option.or_some,
      Option.some.injEq]
    omega
  · simp only
    omega

/-- C8: for every platform or subsystem record list, every status and every
capacity `C ≥ 1`, every byte index written by getPlatformLowPowerStats and
getSubsystemLowPowerStats (by the clipped `snprintf` calls and by the final
terminator) lies in `[0, C)`; at every `snprintf` call cursor + remaining = `C`
with remaining non-negative; the final terminator index is at most `C - 1`. -/
theorem formatters_within_buffer (cells : Int → Char) (C : Nat) (hC : 1 ≤ C)
    (states : List PowerStatePlatformSleepState) (subsystems : List PowerStateSubsystem)
    (status : Status) :
    WithinBuffer C
      (getPlatformLowPowerStats (Mem.init cells) (some C) (.delivered states status)) ∧
    WithinBuffer C
      (getSubsystemLowPowerStats (Mem.init cells) (some C) true (.delivered subsystems status)) := by
  cases status with
  | SUCCESS =>
    constructor
    · simp only [getPlatformLowPowerStats, platformCallback, ne_eq, not_true, if_false,
        statesLoop_eq]
      exact groupsLoop_within cells C hC _ _ rfl
    · simp only [getSubsystemLowPowerStats, subsystemCallback, ne_eq, not_true, if_false,
        subsystemsLoop_eq, if_true]
      exact groupsLoop_within cells C hC _ _ rfl
  | FILESYSTEM_ERROR =>
    constructor
    · simp only [getPlatformLowPowerStats, platformCallback, ne_eq, reduceCtorEq,
        not_false_eq_true, if_true]
      exact groupsLoop_within cells C hC [] _ rfl
    · simp only [getSubsystemLowPowerStats, subsystemCallback, ne_eq, reduceCtorEq,
        not_false_eq_true, if_true]
      exact groupsLoop_within cells C hC [] _ rfl

set_option maxRecDepth 8000 in
/-- Witness for C8: two sample states and one sample subsystem into buffers of 40
bytes, where both renderings are cut. -/
theorem formatters_within_buffer_witness :
    WithinBuffer 40
      (getPlatformLowPowerStats (Mem.init fun _ => 'x') (some 40)
        (.delivered [sampleState, sampleState] Status.SUCCESS)) ∧
    WithinBuffer 40
      (getSubsystemLowPowerStats (Mem.init fun _ => 'x') (some 40) true
        (.delivered [sampleSubsystem] Status.SUCCESS)) ∧
    (getSubsystemLowPowerStats (Mem.init fun _ => 'x') (some 40) true
        (.delivered [sampleSubsystem] Status.SUCCESS)).ret = 39 :=
  ⟨(formatters_within_buffer (fun _ => 'x') 40 (by decide) [sampleState, sampleState]
      [sampleSubsystem] Status.SUCCESS).1,
   (formatters_within_buffer (fun _ => 'x') 40 (by decide) [sampleState, sampleState]
      [sampleSubsystem] Status.SUCCESS).2, by decide⟩

/-! ## Capacity zero -/

/-- C9, counterexample: with capacity 0 and zero records the call stores the
terminator at index 0, raises no exception and returns 0, the value a truncated
successful call with capacity 1 returns; with one record it stores at index -1. -/
theorem getPlatformLowPowerStats_zero_capacity_counterexample :
    (getPlatformLowPowerStats blank (some 0) (.delivered [] Status.SUCCESS)).mem.written = [0] ∧
    (getPlatformLowPowerStats blank (some 0) (.delivered [] Status.SUCCESS)).threw = false ∧
    (getPlatformLowPowerStats blank (some 0) (.delivered [] Status.SUCCESS)).ret
      = (getPlatformLowPowerStats blank (some 1) (.delivered [sampleState] Status.SUCCESS)).ret ∧
    (getPlatformLowPowerStats blank (some 0)
      (.delivered [sampleState] Status.SUCCESS)).mem.written = [-1] := by
  decide

theorem foldl_emit_zero (st : Fmt) (ts : List (List Char)) (h : st.remaining = 0) :
    (ts.foldl emit st).remaining = 0 ∧ (ts.foldl emit st).offset = st.offset ∧
    (ts.foldl emit st).mem.written = st.mem.written ∧
    (∀ c ∈ (ts.foldl emit st).mem.calls, c ∈ st.mem.calls ∨ c.2 = 0) := by
  induction ts generalizing st with
  | nil => exact ⟨h, rfl, rfl, fun c hc => Or.inl hc⟩
  | cons t ts ih =>
    have hr : (emit st t).remaining = 0 := by rw [emit_remaining]; omega
    have ho : (emit st t).offset = st.offset := by rw [emit_offset]; omega
    have hw : (emit st t).mem.written = st.mem.written := by
      simp [emit, snprintf, h]
    have hc : (emit st t).mem.calls = st.mem.calls ++ [(st.offset, 0)] := by
      simp [emit, snprintf, h]
    obtain ⟨i1, i2, i3, i4⟩ := ih (emit st t) hr
    refine ⟨i1, by rw [List.foldl_cons, i2, ho], by rw [List.foldl_cons, i3, hw], ?_⟩
    intro c hcm
    rcases i4 c hcm with h' | h'
    · rw [hc, List.mem_append, List.mem_singleton] at h'
      rcases h' with hx | hx
      · exact Or.inl hx
      · right
        rw [hx]
    · exact Or.inr h'

theorem groupsLoop_zero (st : Fmt) (gs : List (List (List Char))) (h : st.remaining = 0) :
    ∀ c ∈ (groupsLoop st gs).mem.calls, c ∈ st.mem.calls ∨ c.2 = 0 := by
  cases gs with
  | nil => exact fun c hc => Or.inl hc
  | cons g gs =>
    obtain ⟨i1, _, _, i4⟩ := foldl_emit_zero st g h
    simp only [groupsLoop, i1, le_refl, if_true, retract]
    exact i4

/-- C9, amended: a null buffer reference is the validated input: the call raises
the exception and returns -1 with memory untouched.  A capacity of 0 is not
validated: the call raises no exception and runs the formatting path, in which
every `snprintf` call is given size 0 and so stores nothing. -/
theorem getPlatformLowPowerStats_zero_capacity (cells : Int → Char)
    (states : List PowerStatePlatformSleepState) (status : Status) :
    getPlatformLowPowerStats (Mem.init cells) none (.delivered states status)
      = { ret := -1, mem := Mem.init cells, threw := true } ∧
    (getPlatformLowPowerStats (Mem.init cells) (some 0) (.delivered states status)).threw = false ∧
    ∀ c ∈ (getPlatformLowPowerStats (Mem.init cells) (some 0)
              (.delivered states status)).mem.calls, c.2 = 0 := by
  refine ⟨rfl, rfl, ?_⟩
  intro c hc
  cases status with
  | SUCCESS =>
    simp only [getPlatformLowPowerStats, platformCallback, ne_eq, not_true, if_false,
      statesLoop_eq, Mem.store] at hc
    rcases groupsLoop_zero _ _ (by simp) c hc with h | h
    · simp [Mem.init] at h
    · exact h
  | FILESYSTEM_ERROR =>
    simp [getPlatformLowPowerStats, platformCallback, Mem.store, Mem.init] at hc

/-! ## The parser loop over tokens -/

theorem wakeupLine_malformed (st : Wake) (l : List Char) (h : wellFormed l = false) :
    wakeupLine st l = st := by
  simp only [wellFormed, Bool.or_eq_false_iff, decide_eq_false_iff_not, ne_eq, not_not] at h
  obtain ⟨h1, h2⟩ := h
  have h2' : ¬ l.take 6 = ['A', 'b', 'o', 'r', 't', ':'] := h2
  simp [wakeupLine, h1, h2']

theorem wemit_i (st : Wake) (t : List Char) : (wemit st t).i = st.i := by
  simp only [wemit, wakeAdvance]
  split_ifs <;> rfl

theorem wemit_with_i (st : Wake) (t : List Char) (k : Nat) :
    wemit { st with i := k } t = { wemit st t with i := k } := by
  simp only [wemit, wakeAdvance]
  split_ifs <;> rfl

theorem foldl_wemit_with_i (st : Wake) (ts : List (List Char)) (k : Nat) :
    ts.foldl wemit { st with i := k } = { ts.foldl wemit st with i := k } := by
  induction ts generalizing st with
  | nil => rfl
  | cons t ts ih => rw [List.foldl_cons, List.foldl_cons, wemit_with_i, ih]

theorem foldl_wemit_i (st : Wake) (ts : List (List Char)) : (ts.foldl wemit st).i = st.i := by
  induction ts generalizing st with
  | nil => rfl
  | cons t ts ih => rw [List.foldl_cons, ih, wemit_i]

theorem wakeupLine_wellFormed (st : Wake) (l : List Char) (h : wellFormed l = true) :
    wakeupLine st l = { (lineTokens st.i l).foldl wemit st with i := st.i + 1 } := by
  by_cases h0 : (strtol l).2 = 0
  · have h6 : l.take 6 = ['A', 'b', 'o', 'r', 't', ':'] := by
      simpa [wellFormed, h0] using h
    simp [wakeupLine, h0, h6, lineTokens, fieldText, afterField, reasonText, wemit, wemit_i,
      wakeAdvance]
    split_ifs <;> rfl
  · simp [wakeupLine, h0, lineTokens, fieldText, afterField, reasonText, wemit, wemit_i,
      wakeAdvance]
    split_ifs <;> rfl

theorem wakeupLoop_eq (st : Wake) (lines : List (List Char)) :
    wakeupLoop st lines
      = { (wakeupTokens st.i lines).foldl wemit st with
          i := st.i + (lines.filter wellFormed).length } := by
  induction lines generalizing st with
  | nil => rfl
  | cons l ls ih =>
    unfold wakeupLoop at ih ⊢
    rw [List.foldl_cons]
    by_cases h : wellFormed l = true
    · rw [wakeupLine_wellFormed st l h, ih]
      simp only [wakeupTokens, h, if_true, List.foldl_append, List.filter_cons_of_pos,
        List.length_cons, foldl_wemit_with_i]
      congr 1
      omega
    · simp only [Bool.not_eq_true] at h
      rw [wakeupLine_malformed st l h, ih]
      simp [wakeupTokens, h]

theorem wemit_inv {C : Nat} {acc : List Char} {st : Wake} (t : List Char)
    (h : WInv C acc st) :
    WInv C (acc ++ (if (t.length : Int) < st.remainreasonlen then t else [])) (wemit st t) := by
  obtain ⟨hp, hr, hroom, hc⟩ := h
  by_cases hf : (t.length : Int) < st.remainreasonlen
  · have hadv : wemit st t =
        { st with mem := (snprintf st.mem st.mergedreasonpos st.remainreasonlen.toNat t).1,
                  mergedreasonpos := st.mergedreasonpos + (t.length : Int),
                  remainreasonlen := st.remainreasonlen - (t.length : Int) } := by
      simp [wemit, wakeAdvance, snprintf_ret, hf]
    rw [if_pos hf, hadv]
    have hsz : st.remainreasonlen.toNat = C - acc.length := by omega
    refine ⟨?_, ?_, ?_, ?_⟩
    · simp only [List.length_append]
      push_cast
      omega
    · simp only [List.length_append]
      push_cast
      omega
    · simp only [List.length_append]
      omega
    · simp only [List.length_append]
      rw [Mem.read_add]
      congr 1
      · refine Eq.trans (Mem.read_congr ?_) hc
        intro k _ hk
        apply snprintf_cells_outside
        left
        omega
      · have := snprintf_read_head st.mem st.mergedreasonpos st.remainreasonlen.toNat t
          (by omega)
        rw [show min t.length (st.remainreasonlen.toNat - 1) = t.length by omega,
          List.take_of_length_le (by omega)] at this
        rw [show (0 : Int) + (acc.length : Int) = st.mergedreasonpos by omega]
        exact this
  · have hadv : wemit st t =
        { st with mem := (snprintf st.mem st.mergedreasonpos st.remainreasonlen.toNat t).1 } := by
      simp [wemit, wakeAdvance, snprintf_ret, hf]
    rw [if_neg hf, hadv, List.append_nil]
    refine ⟨hp, hr, hroom, ?_⟩
    refine Eq.trans (Mem.read_congr ?_) hc
    intro k _ hk
    apply snprintf_cells_outside
    left
    omega

theorem wemit_remain (st : Wake) (t : List Char) :
    (wemit st t).remainreasonlen
      = if (t.length : Int) < st.remainreasonlen then st.remainreasonlen - (t.length : Int)
        else st.remainreasonlen := by
  simp only [wemit, wakeAdvance, snprintf_ret]
  split_ifs with h1 h2 h2
  · rfl
  · omega
  · omega
  · rfl

theorem foldl_wemit_inv {C : Nat} {acc : List Char} {st : Wake} (ts : List (List Char))
    (h : WInv C acc st) :
    WInv C (acc ++ (keptTokens st.remainreasonlen ts).flatten) (ts.foldl wemit st) := by
  induction ts generalizing acc st with
  | nil => simpa [keptTokens] using h
  | cons t ts ih =>
    have h1 := ih (wemit_inv t h)
    rw [wemit_remain] at h1
    rw [List.foldl_cons]
    by_cases hf : (t.length : Int) < st.remainreasonlen
    · simp only [hf, if_true, List.append_assoc] at h1
      simpa [keptTokens, hf] using h1
    · simp only [hf, if_false, List.append_nil] at h1
      simpa [keptTokens, hf] using h1

theorem keptTokens_all (rem : Int) (ts : List (List Char))
    (h : (ts.flatten.length : Int) < rem) : keptTokens rem ts = ts := by
  induction ts generalizing rem with
  | nil => rfl
  | cons t ts ih =>
    simp only [List.flatten_cons, List.length_append] at h
    push_cast at h
    have hf : (t.length : Int) < rem := by omega
    simp only [keptTokens, hf, if_true]
    rw [ih _ (by omega)]

theorem keptTokens_sublist (rem : Int) (ts : List (List Char)) :
    (keptTokens rem ts).Sublist ts := by
  induction ts generalizing rem with
  | nil => exact List.Sublist.slnil
  | cons t ts ih =>
    simp only [keptTokens]
    split_ifs
    · exact (ih _).cons₂ t
    · exact (ih _).cons t

theorem sublist_flatten {α : Type} {a b : List (List α)} (h : a.Sublist b) :
    a.flatten.Sublist b.flatten := by
  induction h with
  | slnil => exact List.Sublist.slnil
  | cons x _ ih =>
    simp only [List.flatten_cons]
    exact ih.trans (List.sublist_append_right _ _)
  | cons₂ x _ ih =>
    simp only [List.flatten_cons]
    exact (List.Sublist.refl x).append ih

/-! ## The texts of the loop against the worded merged string -/

theorem intercalate_cons_eq {α : Type} (sep e : List α) (es : List (List α)) :
    List.intercalate sep (e :: es) = e ++ (es.map fun x => sep ++ x).flatten := by
  induction es generalizing e with
  | nil => simp [List.intercalate, List.intersperse]
  | cons x xs ih =>
    have := ih x
    simp only [List.intercalate, List.intersperse, List.flatten_cons, List.map_cons] at this ⊢
    rw [this]
    simp

theorem lineTokens_flatten (i : Nat) (l : List Char) :
    (lineTokens i l).flatten = if i = 0 then entryOf l else ':' :: entryOf l := by
  by_cases h0 : (strtol l).2 = 0 <;> by_cases hi : i = 0 <;>
    simp [lineTokens, entryOf, fieldText, afterField, h0, hi]

theorem wakeupTokens_flatten_succ (i : Nat) (lines : List (List Char)) :
    (wakeupTokens (i + 1) lines).flatten
      = (((lines.filter wellFormed).map entryOf).map fun e => [':'] ++ e).flatten := by
  induction lines generalizing i with
  | nil => rfl
  | cons l ls ih =>
    by_cases h : wellFormed l = true
    · simp [wakeupTokens, h, ih, lineTokens_flatten]
    · simp only [Bool.not_eq_true] at h
      simp [wakeupTokens, h, ih]

theorem wakeupTokens_flatten (lines : List (List Char)) :
    (wakeupTokens 0 lines).flatten = mergedReason lines := by
  induction lines with
  | nil => rfl
  | cons l ls ih =>
    by_cases h : wellFormed l = true
    · simp only [wakeupTokens, h, if_true, List.flatten_append, lineTokens_flatten,
        mergedReason, List.filter_cons_of_pos, List.map_cons, intercalate_cons_eq,
        wakeupTokens_flatten_succ]
    · simp only [Bool.not_eq_true] at h
      simp [wakeupTokens, h, ih, mergedReason]

/-- The parser's outcome for any capacity: the cursor is the length of the kept
texts, and the buffer starts with them. -/
theorem wakeupParser_kept (m : Mem) (C : Nat) (lines : List (List Char)) :
    (wakeupParser m C lines).2
      = (((keptTokens (C : Int) (wakeupTokens 0 lines)).flatten.length : Nat) : Int) ∧
    (wakeupParser m C lines).1.read 0 (keptTokens (C : Int) (wakeupTokens 0 lines)).flatten.length
      = (keptTokens (C : Int) (wakeupTokens 0 lines)).flatten ∧
    (keptTokens (C : Int) (wakeupTokens 0 lines)).flatten.length ≤ C := by
  have h0 : WInv C [] { mem := m, mergedreasonpos := 0, remainreasonlen := (C : Int), i := 0 } :=
    ⟨by simp, by simp, by simp, by simp [Mem.read]⟩
  obtain ⟨hp, hr, hroom, hc⟩ := foldl_wemit_inv (wakeupTokens 0 lines) h0
  simp only [List.nil_append] at hp hr hroom hc
  simp only [wakeupParser, wakeupLoop_eq]
  refine ⟨hp, ?_, hroom⟩
  split_ifs
  · rw [Mem.read_store_before _ _ _ _ _ (by omega)]
    exact hc
  · exact hc

theorem wakeupLoop_filter (st : Wake) (lines : List (List Char)) :
    wakeupLoop st lines = wakeupLoop st (lines.filter wellFormed) := by
  induction lines generalizing st with
  | nil => rfl
  | cons l ls ih =>
    by_cases h : wellFormed l = true
    · rw [List.filter_cons_of_pos h]
      unfold wakeupLoop at ih ⊢
      rw [List.foldl_cons, List.foldl_cons, ih]
    · simp only [Bool.not_eq_true] at h
      rw [List.filter_cons_of_neg (by simp [h])]
      unfold wakeupLoop at ih ⊢
      rw [List.foldl_cons, wakeupLine_malformed st l h, ih]

theorem wakeupParser_skips_malformed_aux (m : Mem) (C : Nat) (lines : List (List Char)) :
    wakeupParser m C lines = wakeupParser m C (lines.filter wellFormed) := by
  simp only [wakeupParser]
  rw [wakeupLoop_filter]

theorem wakeupParser_terminator (m : Mem) (C : Nat) (lines : List (List Char))
    (h : 0 < (lines.filter wellFormed).length) :
    (wakeupParser m C lines).1.cells (wakeupParser m C lines).2 = NUL := by
  simp only [wakeupParser, wakeupLoop_eq, Nat.zero_add, gt_iff_lt, h, if_true]
  exact Mem.cells_store_self _ _ _

/-! ## Claims about the wakeup-reason parser -/

/-- C4: when exactly `N` lines are well-formed and the capacity holds the merged
string and its terminator, the buffer holds exactly the `N` entries
`<irq-or-Abort>:<reason-text>` of the well-formed lines, in input order, joined
by `:` with no colon before the first, followed by the terminator when `N > 0`;
the value returned is the length of the merged string. -/
theorem wakeupParser_merged (m : Mem) (C N : Nat) (lines : List (List Char))
    (hN : (lines.filter wellFormed).length = N)
    (hC : (mergedReason lines).length + 1 ≤ C) :
    ∃ entries : List (List Char),
      entries = (lines.filter wellFormed).map entryOf ∧ entries.length = N ∧
      (wakeupParser m C lines).1.read 0 (List.intercalate [':'] entries).length
        = List.intercalate [':'] entries ∧
      (wakeupParser m C lines).2 = ((List.intercalate [':'] entries).length : Int) ∧
      (0 < N → (wakeupParser m C lines).1.cells ((List.intercalate [':'] entries).length : Int)
        = NUL) := by
  refine ⟨_, rfl, by simpa using hN, ?_⟩
  have hall : keptTokens (C : Int) (wakeupTokens 0 lines) = wakeupTokens 0 lines := by
    apply keptTokens_all
    rw [wakeupTokens_flatten]
    omega
  obtain ⟨h1, h2, _⟩ := wakeupParser_kept m C lines
  rw [hall, wakeupTokens_flatten] at h1 h2
  refine ⟨h2, h1, ?_⟩
  intro hpos
  have := wakeupParser_terminator m C lines (by omega)
  rw [h1] at this
  exact this

set_option maxRecDepth 100000 in
/-- Witness for C4: a numeric line, a malformed line and an `Abort:` line into a
buffer of 32 bytes. -/
theorem wakeupParser_merged_witness :
    (wakeupParser blank 32 ["12 timer\n".toList, "bad\n".toList, "Abort:  busy\n".toList]).1.read
        0 19 = "12:timer:Abort:busy".toList ∧
    (wakeupParser blank 32 ["12 timer\n".toList, "bad\n".toList, "Abort:  busy\n".toList]).2
        = 19 := by
  obtain ⟨entries, he, _, h1, h2, _⟩ := wakeupParser_merged blank 32 2
    ["12 timer\n".toList, "bad\n".toList, "Abort:  busy\n".toList] (by decide) (by decide)
  have hm : List.intercalate [':'] entries = "12:timer:Abort:busy".toList := by
    rw [he]
    decide
  rw [hm] at h1 h2
  exact ⟨h1, h2⟩

set_option maxRecDepth 100000 in
/-- C5, counterexample: for the lines `146 sd93: 00:02:00\n` and
`Abort: something\n` and a 256-byte buffer the parser does not leave
`146:00:02:00:Abort:something` in the buffer. -/
theorem wakeupParser_example_counterexample :
    ¬ (wakeupParser blank 256
        ["146 sd93: 00:02:00\n".toList, "Abort: something\n".toList]).1.read 0 28
      = "146:00:02:00:Abort:something".toList := by
  decide

set_option maxRecDepth 100000 in
/-- C5, amended: for the lines `146 sd93: 00:02:00\n` and `Abort: something\n`
and a 256-byte buffer the parser leaves exactly
`146:sd93: 00:02:00:Abort:something` and the terminator in the buffer and returns
34; the whole of `nativeWaitWakeup` on a file with these two lines does the
same. -/
theorem wakeupParser_example :
    (wakeupParser blank 256
        ["146 sd93: 00:02:00\n".toList, "Abort: something\n".toList]).1.read 0 35
      = "146:sd93: 00:02:00:Abort:something".toList ++ [NUL] ∧
    (wakeupParser blank 256
        ["146 sd93: 00:02:00\n".toList, "Abort: something\n".toList]).2 = 34 ∧
    (nativeWaitWakeup blank (some 256)
        ⟨false, true, true, some "146 sd93: 00:02:00\nAbort: something\n".toList, true⟩).mem.read
          0 35
      = "146:sd93: 00:02:00:Abort:something".toList ++ [NUL] ∧
    (nativeWaitWakeup blank (some 256)
        ⟨false, true, true, some "146 sd93: 00:02:00\nAbort: something\n".toList, true⟩).ret
      = 34 := by
  decide

/-- C6: for every sequence of lines and every capacity the parser's outcome
(memory, with the stores and calls made, and the value returned) equals its
outcome on the sequence with every malformed line deleted. -/
theorem wakeupParser_skips_malformed (m : Mem) (C : Nat) (lines : List (List Char)) :
    wakeupParser m C lines = wakeupParser m C (lines.filter wellFormed) :=
  wakeupParser_skips_malformed_aux m C lines

set_option maxRecDepth 100000 in
/-- C7, counterexample: with capacity 5 the line `123456 ab\n` leaves `:ab` in
the buffer, which is not a prefix of the merged string `123456:ab`. -/
theorem wakeupParser_prefix_counterexample :
    (wakeupParser blank 5 ["123456 ab\n".toList]).2 = 3 ∧
    (wakeupParser blank 5 ["123456 ab\n".toList]).1.read 0 4 = ":ab".toList ++ [NUL] ∧
    mergedReason ["123456 ab\n".toList] = "123456:ab".toList ∧
    ¬ ((wakeupParser blank 5 ["123456 ab\n".toList]).1.read 0 3
        <+: mergedReason ["123456 ab\n".toList]) := by
  decide

/-- C7, amended: for every sequence of lines and every capacity, the string the
parser leaves in the buffer is a subsequence of the merged string of the
unbounded rendering: it is the concatenation, in order, of a sub-list of the
texts written; a write moves the cursor by the text's full length when that
length is strictly below the remaining capacity and not at all otherwise. -/
theorem wakeupParser_subsequence (m : Mem) (C : Nat) (lines : List (List Char)) :
    (∃ kept : List (List Char),
      kept.Sublist (wakeupTokens 0 lines) ∧
      (wakeupTokens 0 lines).flatten = mergedReason lines ∧
      (wakeupParser m C lines).2 = (kept.flatten.length : Int) ∧
      (wakeupParser m C lines).1.read 0 kept.flatten.length = kept.flatten) ∧
    ((wakeupParser m C lines).1.read 0 (wakeupParser m C lines).2.toNat).Sublist
      (mergedReason lines) ∧
    ∀ (st : Wake) (t : List Char),
      (wemit st t).mergedreasonpos
        = if (t.length : Int) < st.remainreasonlen then st.mergedreasonpos + (t.length : Int)
          else st.mergedreasonpos := by
  obtain ⟨h1, h2, _⟩ := wakeupParser_kept m C lines
  have hsub := keptTokens_sublist (C : Int) (wakeupTokens 0 lines)
  refine ⟨⟨_, hsub, wakeupTokens_flatten lines, h1, h2⟩, ?_, ?_⟩
  · rw [h1, Int.toNat_ofNat, h2, ← wakeupTokens_flatten]
    exact sublist_flatten hsub
  · intro st t
    simp only [wemit, wakeAdvance, snprintf_ret]
    split_ifs with a b b
    · rfl
    · omega
    · omega
    · rfl

/-- C10: when no line is well-formed (the empty sequence included), for every
capacity the parser returns 0 and leaves memory as it was: no byte is stored, no
terminator written, no `snprintf` call made. -/
theorem wakeupParser_no_wellFormed (m : Mem) (C : Nat) (lines : List (List Char))
    (h : ∀ l ∈ lines, wellFormed l = false) :
    wakeupParser m C lines = (m, 0) := by
  have hf : lines.filter wellFormed = [] := by
    rw [List.filter_eq_nil_iff]
    intro l hl
    simp [h l hl]
  rw [wakeupParser_skips_malformed_aux m C lines, hf]
  rfl

set_option maxRecDepth 100000 in
/-- Witness for C10: two malformed lines into a buffer of 8 bytes. -/
theorem wakeupParser_no_wellFormed_witness :
    wakeupParser blank 8 ["wakeup\n".toList, " Abort: x\n".toList] = (blank, 0) :=
  wakeupParser_no_wellFormed blank 8 ["wakeup\n".toList, " Abort: x\n".toList] (by decide)

/-! ## Further claims about the formatters -/

/-- C12: when the service reports a status other than SUCCESS (capacity at least
1), whatever record list comes with it, no record is processed: no `snprintf`
call is made, the only store is the terminator at index 0 (the buffer holds the
empty string), and the value returned is the one a SUCCESS response with zero
records gets, which is not the error sentinel -1. -/
theorem getPlatformLowPowerStats_failure_status (m : Mem) (C : Nat)
    (states : List PowerStatePlatformSleepState) (status : Status)
    (hC : 1 ≤ C) (hs : status ≠ Status.SUCCESS) :
    getPlatformLowPowerStats m (some C) (.delivered states status)
      = { ret := 0, mem := m.store 0 NUL, threw := false } ∧
    (getPlatformLowPowerStats m (some C) (.delivered states status)).mem.cells 0 = NUL ∧
    (getPlatformLowPowerStats m (some C) (.delivered states status)).mem.calls = m.calls ∧
    (getPlatformLowPowerStats m (some C) (.delivered states status)).mem.written
      = m.written ++ [0] ∧
    (getPlatformLowPowerStats m (some C) (.delivered states status)).ret
      = (getPlatformLowPowerStats m (some C) (.delivered [] Status.SUCCESS)).ret ∧
    (getPlatformLowPowerStats m (some C) (.delivered states status)).ret ≠ -1 := by
  have h := platform_result_failure m C states status hs
  have h0 := (platform_result m C hC []).1
  rw [h]
  refine ⟨rfl, Mem.cells_store_self _ _ _, rfl, rfl, ?_, ?_⟩
  · rw [h0]
    simp [platformRendering, platformRenderingFrom]
  · show (0 : Int) ≠ -1
    decide

/-- Witness for C12: the sample state delivered with FILESYSTEM_ERROR into a
buffer of 64 bytes. -/
theorem getPlatformLowPowerStats_failure_status_witness :
    getPlatformLowPowerStats blank (some 64) (.delivered [sampleState] Status.FILESYSTEM_ERROR)
      = { ret := 0, mem := blank.store 0 NUL, threw := false } :=
  (getPlatformLowPowerStats_failure_status blank 64 [sampleState] Status.FILESYSTEM_ERROR
    (by decide) (by decide)).1

theorem subsystemText_eq (i : Nat) (s : PowerStateSubsystem) :
    subsystemText i s = subsystemToken (i + 1) s := rfl

theorem subsystemStateText_eq (j : Nat) (v : PowerStateSubsystemSleepState) :
    subsystemStateText j v = subsystemStateToken (j + 1) v := rfl

theorem subsystemStateTexts_flatten (j : Nat) (vs : List PowerStateSubsystemSleepState) :
    (subsystemStateTexts j vs).flatten
      = ((vs.enumFrom (j + 1)).map fun q => subsystemStateToken q.1 q.2).flatten := by
  induction vs generalizing j with
  | nil => rfl
  | cons v vs ih =>
    simp only [subsystemStateTexts, List.flatten_cons, List.enumFrom_cons, List.map_cons, ih,
      subsystemStateText_eq]

theorem subsystemGroups_flatten (i : Nat) (ss : List PowerStateSubsystem) :
    (subsystemGroups i ss).flatten.flatten = subsystemRenderingFrom (i + 1) ss := by
  induction ss generalizing i with
  | nil => rfl
  | cons s ss ih =>
    simp only [subsystemGroups, List.flatten_cons, List.flatten_append, ih,
      subsystemRenderingFrom, List.enumFrom_cons, List.map_cons, subsystemStateTexts_flatten,
      subsystemText_eq, List.append_assoc]

/-- The result of a delivered, successful subsystem call on a 1.1 service for
capacity at least 1. -/
theorem subsystem_result (m : Mem) (C : Nat) (hC : 1 ≤ C)
    (subsystems : List PowerStateSubsystem) :
    (getSubsystemLowPowerStats m (some C) true (.delivered subsystems Status.SUCCESS)).ret
      = ((min (subsystemRendering subsystems).length (C - 1) : Nat) : Int) ∧
    (getSubsystemLowPowerStats m (some C) true (.delivered subsystems Status.SUCCESS)).mem.read 0
        (min (subsystemRendering subsystems).length (C - 1) + 1)
      = (subsystemRendering subsystems).take (C - 1) ++ [NUL] := by
  have hc := groupsLoop_content (subsystemGroups 0 subsystems) (inv_init m C)
    (by simp only [List.length_nil]; omega)
  have ht := groupsLoop_total
    { mem := m, offset := 0, remaining := (C : Int), total_added := -1 }
    (subsystemGroups 0 subsystems)
  simp only [List.nil_append, subsystemGroups_flatten, Nat.zero_add] at hc
  simp only at ht
  simp only [getSubsystemLowPowerStats, subsystemCallback, subsystemsLoop_eq, ne_eq, not_true,
    if_false, if_true, subsystemRendering]
  obtain ⟨ho, hread⟩ := hc
  constructor
  · omega
  · rw [ho, Mem.read_store_end, hread]

/-- C13: for a subsystem record list delivered with SUCCESS by a service that
supports the 1.1 interface, and a capacity `C` strictly greater than the length
of the full rendering, the buffer holds exactly, for each subsystem in input
order, the token `subsystem_<i> name=<name> ` followed by its state tokens
`state_<j> name=.. time=.. count=.. last entry TS(ms)=.. ` (ordinals 1-based,
states numbered afresh per subsystem), followed by a terminator. -/
theorem getSubsystemLowPowerStats_full_rendering (m : Mem) (C : Nat)
    (subsystems : List PowerStateSubsystem)
    (hC : (subsystemRendering subsystems).length < C) :
    (getSubsystemLowPowerStats m (some C) true (.delivered subsystems Status.SUCCESS)).mem.read 0
        ((subsystemRendering subsystems).length + 1)
      = subsystemRendering subsystems ++ [NUL] := by
  have h := (subsystem_result m C (by omega) subsystems).2
  rw [show min (subsystemRendering subsystems).length (C - 1)
      = (subsystemRendering subsystems).length by omega,
    List.take_of_length_le (by omega)] at h
  exact h

set_option maxRecDepth 100000 in
/-- Witness for C13: the sample subsystem into a buffer of 128 bytes. -/
theorem getSubsystemLowPowerStats_full_rendering_witness :
    (getSubsystemLowPowerStats blank (some 128) true
        (.delivered [sampleSubsystem] Status.SUCCESS)).mem.read 0 79
      = "subsystem_1 name=modem state_1 name=sleep time=7 count=1 last entry TS(ms)=99 ".toList
          ++ [NUL] :=
  getSubsystemLowPowerStats_full_rendering blank 128 [sampleSubsystem] (by decide)

/-- C14: when the service handle does not support the 1.1 interface,
getSubsystemLowPowerStats returns exactly 0 and leaves memory as it was (no
store, no `snprintf` call), for every memory content and capacity, whatever the
service would have replied. -/
theorem getSubsystemLowPowerStats_unsupported (m : Mem) (C : Nat)
    (subsystems : List PowerStateSubsystem) (status : Status) :
    getSubsystemLowPowerStats m (some C) false (.delivered subsystems status)
      = { ret := 0, mem := m, threw := false } ∧
    getSubsystemLowPowerStats m (some C) false .failed
      = { ret := 0, mem := m, threw := false } :=
  ⟨rfl, rfl⟩

/-- C16: for a platform record list delivered with SUCCESS, with rendering of
length `L`, and every capacity `C ≥ 1` (the case `L = C` included), the value
returned is `min L (C - 1)`; it is not negative, it is the index at which the
terminator is stored, and the bytes before it are the first `min L (C - 1)`
bytes of the rendering. -/
theorem getPlatformLowPowerStats_return_min (m : Mem) (C : Nat)
    (states : List PowerStatePlatformSleepState) (hC : 1 ≤ C) :
    (getPlatformLowPowerStats m (some C) (.delivered states Status.SUCCESS)).ret
      = ((min (platformRendering states).length (C - 1) : Nat) : Int) ∧
    0 ≤ (getPlatformLowPowerStats m (some C) (.delivered states Status.SUCCESS)).ret ∧
    (getPlatformLowPowerStats m (some C) (.delivered states Status.SUCCESS)).mem.written.getLast?
      = some (getPlatformLowPowerStats m (some C) (.delivered states Status.SUCCESS)).ret ∧
    (getPlatformLowPowerStats m (some C) (.delivered states Status.SUCCESS)).mem.cells
      ((min (platformRendering states).length (C - 1) : Nat) : Int) = NUL ∧
    (getPlatformLowPowerStats m (some C) (.delivered states Status.SUCCESS)).mem.read 0
      (min (platformRendering states).length (C - 1))
      = (platformRendering states).take (min (platformRendering states).length (C - 1)) := by
  obtain ⟨hret, hread⟩ := platform_result m C hC states
  rw [Mem.read_succ_last] at hread
  have hcell := List.append_inj_right' hread rfl
  have hpre := List.append_inj_left' hread rfl
  refine ⟨hret, by omega, ?_, by simpa using hcell, ?_⟩
  · have ht := groupsLoop_total
      { mem := m, offset := 0, remaining := (C : Int), total_added := -1 }
      (platformGroups 0 states)
    simp only at ht
    simp only [getPlatformLowPowerStats, platformCallback, statesLoop_eq, ne_eq, not_true,
      if_false, Mem.store, List.getLast?_append, List.getLast?_singleton, Option.or_some,
      Option.some.injEq]
    omega
  · rw [hpre, Nat.min_comm, ← List.take_take, List.take_of_length_le (Nat.le_refl _)]

/-- Witness for C16: the sample state, whose rendering has 62 bytes, into a
buffer of exactly 62 bytes returns 61. -/
theorem getPlatformLowPowerStats_return_min_witness :
    (getPlatformLowPowerStats blank (some 62) (.delivered [sampleState] Status.SUCCESS)).ret
      = ((min (platformRendering [sampleState]).length (62 - 1) : Nat) : Int) ∧
    ((min (platformRendering [sampleState]).length (62 - 1) : Nat) : Int) = 61 :=
  ⟨(getPlatformLowPowerStats_return_min blank 62 [sampleState] (by decide)).1, by decide⟩

/-! ## Which texts of the parser are kept -/

theorem keptTokens_append (rem : Int) (a b : List (List Char)) :
    keptTokens rem (a ++ b)
      = keptTokens rem a
          ++ keptTokens (rem - ((keptTokens rem a).flatten.length : Int)) b := by
  induction a generalizing rem with
  | nil => simp [keptTokens]
  | cons t ts ih =>
    show keptTokens rem (t :: (ts ++ b)) = _
    by_cases hf : (t.length : Int) < rem
    · have e : keptTokens rem (t :: ts) = t :: keptTokens (rem - (t.length : Int)) ts := by
        simp [keptTokens, hf]
      have e2 : keptTokens rem (t :: (ts ++ b))
          = t :: keptTokens (rem - (t.length : Int)) (ts ++ b) := by
        simp [keptTokens, hf]
      have e3 : rem - (t.length : Int)
            - ((keptTokens (rem - (t.length : Int)) ts).flatten.length : Int)
          = rem - ((t.length + (keptTokens (rem - (t.length : Int)) ts).flatten.length : Nat)
              : Int) := by
        push_cast
        omega
      rw [e2, e, ih, e3]
      simp
    · have e : keptTokens rem (t :: ts) = keptTokens rem ts := by
        simp [keptTokens, hf]
      have e2 : keptTokens rem (t :: (ts ++ b)) = keptTokens rem (ts ++ b) := by
        simp [keptTokens, hf]
      rw [e2, e, ih]

theorem foldl_wemit_remain (st : Wake) (ts : List (List Char)) :
    (ts.foldl wemit st).remainreasonlen
      = st.remainreasonlen - ((keptTokens st.remainreasonlen ts).flatten.length : Int) := by
  induction ts generalizing st with
  | nil => simp [keptTokens]
  | cons t ts ih =>
    rw [List.foldl_cons, ih, wemit_remain]
    by_cases hf : (t.length : Int) < st.remainreasonlen
    · simp only [hf, if_true, keptTokens, List.flatten_cons, List.length_append]
      push_cast
      omega
    · simp only [hf, if_false, keptTokens]

/-- C17: for every sequence of lines and every capacity, the string the parser
leaves in the buffer (the bytes before the returned index) is the concatenation,
in order, of a sub-list of the texts of the unbounded rendering (the field texts
`<irq>`, `:<irq>`, `Abort`, `:Abort` and the reason texts `:<reason>`); a text is
kept whole exactly when its length is strictly below the remaining capacity the
loop holds at the moment it is written, and otherwise adds nothing. -/
theorem wakeupParser_whole_tokens (m : Mem) (C : Nat) (lines : List (List Char)) :
    (wakeupTokens 0 lines).flatten = mergedReason lines ∧
    (keptTokens (C : Int) (wakeupTokens 0 lines)).Sublist (wakeupTokens 0 lines) ∧
    (wakeupParser m C lines).1.read 0 (wakeupParser m C lines).2.toNat
      = (keptTokens (C : Int) (wakeupTokens 0 lines)).flatten ∧
    ∀ (pre : List (List Char)) (t : List Char) (post : List (List Char)),
      wakeupTokens 0 lines = pre ++ t :: post →
      keptTokens (C : Int) (wakeupTokens 0 lines)
        = keptTokens (C : Int) pre
          ++ (if (t.length : Int) <
                (pre.foldl wemit
                  { mem := m, mergedreasonpos := 0, remainreasonlen := (C : Int),
                    i := 0 }).remainreasonlen
              then [t] else [])
          ++ keptTokens
              (wemit (pre.foldl wemit
                  { mem := m, mergedreasonpos := 0, remainreasonlen := (C : Int), i := 0 })
                t).remainreasonlen post := by
  obtain ⟨h1, h2, _⟩ := wakeupParser_kept m C lines
  refine ⟨wakeupTokens_flatten lines, keptTokens_sublist _ _, ?_, ?_⟩
  · rw [h1, Int.toNat_ofNat, h2]
  · intro pre t post hsplit
    rw [hsplit, keptTokens_append, wemit_remain, foldl_wemit_remain]
    simp only [keptTokens]
    split_ifs <;> simp

/-! ## The parser's string and its terminator -/

theorem digitChar_ne_nul (k : Nat) (hk : k < 10) : Nat.digitChar k ≠ NUL := by
  interval_cases k <;> decide

theorem toDigitsCore_ne_nul (fuel n : Nat) (ds : List Char) (h : ∀ c ∈ ds, c ≠ NUL) :
    ∀ c ∈ Nat.toDigitsCore 10 fuel n ds, c ≠ NUL := by
  induction fuel generalizing n ds with
  | zero => simpa [Nat.toDigitsCore] using h
  | succ f ih =>
    have hcons : ∀ c ∈ Nat.digitChar (n % 10) :: ds, c ≠ NUL := by
      intro c hc
      rcases List.mem_cons.1 hc with hx | hx
      · rw [hx]
        exact digitChar_ne_nul _ (Nat.mod_lt _ (by decide))
      · exact h c hx
    simp only [Nat.toDigitsCore]
    split_ifs
    · exact hcons
    · exact ih _ _ hcons

theorem toDigits_ne_nul (n : Nat) : ∀ c ∈ Nat.toDigits 10 n, c ≠ NUL :=
  toDigitsCore_ne_nul (n + 1) n [] (by simp)

theorem fmtInt_ne_nul (v : Int) : ∀ c ∈ fmtInt v, c ≠ NUL := by
  intro c hc
  unfold fmtInt at hc
  split_ifs at hc
  · rcases List.mem_cons.1 hc with hx | hx
    · rw [hx]
      decide
    · exact toDigits_ne_nul _ c hx
  · exact toDigits_ne_nul _ c hc

theorem reasonText_subset (l : List Char) : ∀ c ∈ reasonText l, c ∈ l := by
  intro c hc
  unfold reasonText at hc
  exact (List.dropWhile_sublist _).subset ((List.takeWhile_sublist _).subset hc)

theorem afterField_subset (l : List Char) : ∀ c ∈ afterField l, c ∈ l := by
  intro c hc
  unfold afterField at hc
  split_ifs at hc
  · exact (List.drop_sublist _ _).subset hc
  · exact (List.drop_sublist _ _).subset hc

theorem fieldText_ne_nul (l : List Char) : ∀ c ∈ fieldText l, c ≠ NUL := by
  intro c hc
  unfold fieldText at hc
  split_ifs at hc
  · exact fmtInt_ne_nul _ c hc
  · have hA : ∀ x ∈ "Abort".toList, x ≠ NUL := by decide
    exact hA c hc

theorem lineTokens_ne_nul (i : Nat) (l : List Char) (h : NUL ∉ l) :
    ∀ t ∈ lineTokens i l, ∀ c ∈ t, c ≠ NUL := by
  have hcolon : (':' : Char) ≠ NUL := by decide
  intro t ht c hc
  simp only [lineTokens, List.mem_cons, List.mem_singleton, List.not_mem_nil, or_false] at ht
  rcases ht with ht | ht
  · subst ht
    split_ifs at hc
    · exact fieldText_ne_nul l c hc
    · rcases List.mem_cons.1 hc with hx | hx
      · rw [hx]
        exact hcolon
      · exact fieldText_ne_nul l c hx
  · subst ht
    rcases List.mem_cons.1 hc with hx | hx
    · rw [hx]
      exact hcolon
    · intro hnul
      rw [hnul] at hx
      exact h (afterField_subset l _ (reasonText_subset _ _ hx))

theorem wakeupTokens_ne_nul (i : Nat) (lines : List (List Char))
    (h : ∀ l ∈ lines, NUL ∉ l) : ∀ t ∈ wakeupTokens i lines, ∀ c ∈ t, c ≠ NUL := by
  induction lines generalizing i with
  | nil => intro t ht; simp [wakeupTokens] at ht
  | cons l ls ih =>
    have hl := h l (List.mem_cons_self _ _)
    have hls : ∀ x ∈ ls, NUL ∉ x := fun x hx => h x (List.mem_cons_of_mem _ hx)
    intro t ht
    simp only [wakeupTokens] at ht
    split_ifs at ht
    · rcases List.mem_append.1 ht with hx | hx
      · exact lineTokens_ne_nul i l hl t hx
      · exact ih (i + 1) hls t hx
    · exact ih i hls t ht

theorem wemit_mem (st : Wake) (t : List Char) :
    (wemit st t).mem = (snprintf st.mem st.mergedreasonpos st.remainreasonlen.toNat t).1 := by
  simp only [wemit, wakeAdvance]
  split_ifs <;> rfl

theorem foldl_wemit_written {C : Nat} {acc : List Char} {st : Wake} (ts : List (List Char))
    (h : WInv C acc st) (hw : ∀ i ∈ st.mem.written, 0 ≤ i ∧ i < (C : Int)) :
    ∀ i ∈ (ts.foldl wemit st).mem.written, 0 ≤ i ∧ i < (C : Int) := by
  induction ts generalizing acc st with
  | nil => exact hw
  | cons t ts ih =>
    rw [List.foldl_cons]
    apply ih (wemit_inv t h)
    intro i hi
    rw [wemit_mem] at hi
    obtain ⟨hp, hr, hroom, _⟩ := h
    rcases snprintf_written _ _ _ _ i hi with hx | hx
    · exact hw i hx
    · omega

theorem keptTokens_length_lt (rem : Int) (ts : List (List Char)) (h : 0 < rem) :
    ((keptTokens rem ts).flatten.length : Int) < rem := by
  induction ts generalizing rem with
  | nil => simpa [keptTokens] using h
  | cons t ts ih =>
    by_cases hf : (t.length : Int) < rem
    · have := ih (rem - (t.length : Int)) (by omega)
      simp only [keptTokens, hf, if_true, List.flatten_cons, List.length_append]
      push_cast
      omega
    · simp only [keptTokens, hf, if_false]
      exact ih rem h

theorem Mem.cells_mem_read (m : Mem) (n : Nat) (k : Int) (h0 : 0 ≤ k) (hn : k < (n : Int)) :
    m.cells k ∈ m.read 0 n := by
  simp only [Mem.read, List.mem_map, List.mem_range]
  refine ⟨k.toNat, by omega, ?_⟩
  congr 1
  omega

/-- C11: for lines of text (no line holds the terminator character) with at
least one well-formed line and a capacity `C ≥ 1`, the parser returns `r` with
`0 ≤ r ≤ C - 1`, the byte at index `r` is the terminator, no byte at an index
below `r` is a terminator, and every index stored to lies in `[0, C)`. -/
theorem wakeupParser_terminated (cells : Int → Char) (C : Nat) (lines : List (List Char))
    (hC : 1 ≤ C) (hwf : ∃ l ∈ lines, wellFormed l = true)
    (htext : ∀ l ∈ lines, NUL ∉ l) :
    0 ≤ (wakeupParser (Mem.init cells) C lines).2 ∧
    (wakeupParser (Mem.init cells) C lines).2 ≤ (C : Int) - 1 ∧
    (wakeupParser (Mem.init cells) C lines).1.cells (wakeupParser (Mem.init cells) C lines).2
      = NUL ∧
    (∀ k : Int, 0 ≤ k → k < (wakeupParser (Mem.init cells) C lines).2 →
      (wakeupParser (Mem.init cells) C lines).1.cells k ≠ NUL) ∧
    (∀ i ∈ (wakeupParser (Mem.init cells) C lines).1.written, 0 ≤ i ∧ i < (C : Int)) := by
  obtain ⟨h1, h2, _⟩ := wakeupParser_kept (Mem.init cells) C lines
  have hlt := keptTokens_length_lt (C : Int) (wakeupTokens 0 lines) (by omega)
  have hpos : 0 < (lines.filter wellFormed).length := by
    obtain ⟨l, hl, hw⟩ := hwf
    exact List.length_pos_of_mem (List.mem_filter.2 ⟨hl, hw⟩)
  refine ⟨by omega, by omega, wakeupParser_terminator _ C lines hpos, ?_, ?_⟩
  · intro k hk0 hk
    rw [h1] at hk
    have hmem := Mem.cells_mem_read (wakeupParser (Mem.init cells) C lines).1 _ k hk0 hk
    rw [h2] at hmem
    obtain ⟨t, ht, hc⟩ := List.mem_flatten.1 hmem
    exact wakeupTokens_ne_nul 0 lines htext t
      ((keptTokens_sublist _ _).subset ht) _ hc
  · have h0 : WInv C []
        { mem := Mem.init cells, mergedreasonpos := 0, remainreasonlen := (C : Int), i := 0 } :=
      ⟨by simp, by simp, by simp, by simp [Mem.read]⟩
    have hinv := foldl_wemit_inv (wakeupTokens 0 lines) h0
    have hw := foldl_wemit_written (wakeupTokens 0 lines) h0 (by simp [Mem.init])
    obtain ⟨hp, _, _, _⟩ := hinv
    simp only [List.nil_append] at hp
    simp only [wakeupParser, wakeupLoop_eq]
    split_ifs
    · intro i hi
      simp only [Mem.store, List.mem_append, List.mem_singleton] at hi
      rcases hi with hx | hx
      · exact hw i hx
      · omega
    · exact hw

set_option maxRecDepth 100000 in
/-- Witness for C11: a numeric line and an `Abort:` line into a buffer of 8
bytes, where only the texts `12` and `:busy` fit. -/
theorem wakeupParser_terminated_witness :
    (wakeupParser (Mem.init fun _ => 'x') 8
        ["12 timer\n".toList, "Abort:  busy\n".toList]).1.cells
      (wakeupParser (Mem.init fun _ => 'x') 8
        ["12 timer\n".toList, "Abort:  busy\n".toList]).2 = NUL ∧
    (wakeupParser (Mem.init fun _ => 'x') 8
        ["12 timer\n".toList, "Abort:  busy\n".toList]).2 = 7 :=
  ⟨(wakeupParser_terminated (fun _ => 'x') 8 ["12 timer\n".toList, "Abort:  busy\n".toList]
      (by decide) (by decide) (by decide)).2.2.1, by decide⟩

/-! ## The IRQ field -/

theorem isdigit_not_space (c : Char) (h : isdigit c = true) :
    isspace c = false ∧ c ≠ '-' ∧ c ≠ '+' := by
  refine ⟨?_, ?_, ?_⟩
  · by_contra hs
    simp only [Bool.not_eq_false] at hs
    simp only [isspace, Bool.or_eq_true, decide_eq_true_eq] at hs
    rcases hs with ((((h1 | h1) | h1) | h1) | h1) | h1 <;>
      (subst h1; revert h; decide)
  · rintro rfl
    revert h
    decide
  · rintro rfl
    revert h
    decide

theorem strtol_sign_none (c : Char) (cs : List Char) (hm : c ≠ '-') (hp : c ≠ '+')
    (h1 h2 : List Char → Bool × Nat × List Char) (h3 : List Char → Bool × Nat × List Char) :
    strtol.match_1 (fun _ => Bool × Nat × List Char) (c :: cs) h1 h2 h3 = h3 (c :: cs) := by
  unfold strtol.match_1
  simp only [dif_neg hm, dif_neg hp]

theorem strtol_digits (c : Char) (cs : List Char) (h : isdigit c = true) :
    strtol (c :: cs)
      = (min ((digitsValue ((c :: cs).takeWhile isdigit) : Nat) : Int) LONG_MAX,
         ((c :: cs).takeWhile isdigit).length) := by
  obtain ⟨hs, hm, hp⟩ := isdigit_not_space c h
  unfold strtol
  simp only [List.takeWhile_cons, List.dropWhile_cons, hs, h, if_true, Bool.false_eq_true,
    if_false, strtol_sign_none c cs hm hp]
  simp

theorem toInt32_small (v : Nat) (hv : v < 2 ^ 31) :
    toInt32 (min (v : Int) LONG_MAX) = (v : Int) := by
  have h31 : (2 : Nat) ^ 31 = 2147483648 := by norm_num
  rw [h31] at hv
  have hmin : min (v : Int) LONG_MAX = (v : Int) := by
    apply min_eq_left
    simp only [LONG_MAX]
    norm_num
    omega
  rw [hmin]
  simp only [toInt32]
  norm_num
  omega

theorem fmtInt_natCast (v : Nat) : fmtInt (v : Int) = Nat.toDigits 10 v := by
  simp [fmtInt]

set_option maxRecDepth 100000 in
/-- C15, counterexample: the line `4294967296 x\n` begins with a run of digits
denoting 4294967296, yet the field written is `0`. -/
theorem wakeupParser_irq_counterexample :
    (wakeupParser blank 64 ["4294967296 x\n".toList]).1.read 0 4 = "0:x".toList ++ [NUL] ∧
    ¬ (wakeupParser blank 64 ["4294967296 x\n".toList]).1.read 0 10
        = Nat.toDigits 10 4294967296 := by
  decide

/-- C15, amended: for every line that begins with a run of decimal digits
denoting a number below `2 ^ 31`, the line is well-formed and the field text the
parser writes for it is the decimal rendering of that number (after `:` when it
is not the first entry); with a buffer large enough for the line's entry, the
buffer of a parse of that line starts with the rendering followed by `:`. -/
theorem wakeupParser_irq_field (m : Mem) (C : Nat) (line : List Char)
    (hd : line.takeWhile isdigit ≠ [])
    (hv : digitsValue (line.takeWhile isdigit) < 2 ^ 31)
    (hC : (mergedReason [line]).length + 1 ≤ C) :
    wellFormed line = true ∧
    fieldText line = Nat.toDigits 10 (digitsValue (line.takeWhile isdigit)) ∧
    (∀ st : Wake, wakeupLine st line =
      { ([if st.i = 0 then Nat.toDigits 10 (digitsValue (line.takeWhile isdigit))
          else ':' :: Nat.toDigits 10 (digitsValue (line.takeWhile isdigit)),
          ':' :: reasonText (line.drop (line.takeWhile isdigit).length)]).foldl wemit st with
        i := st.i + 1 }) ∧
    (wakeupParser m C [line]).1.read 0
        (Nat.toDigits 10 (digitsValue (line.takeWhile isdigit)) ++ [':']).length
      = Nat.toDigits 10 (digitsValue (line.takeWhile isdigit)) ++ [':'] := by
  obtain ⟨c, cs, rfl, hc⟩ : ∃ c cs, line = c :: cs ∧ isdigit c = true := by
    cases line with
    | nil => exact absurd rfl hd
    | cons c cs =>
      refine ⟨c, cs, rfl, ?_⟩
      by_contra hn
      simp [List.takeWhile_cons, hn] at hd
  have hst := strtol_digits c cs hc
  have hlen : ((c :: cs).takeWhile isdigit).length ≠ 0 := by
    simp [List.takeWhile_cons, hc]
  have hcons : (strtol (c :: cs)).2 ≠ 0 := by
    rw [hst]
    exact hlen
  have hwf : wellFormed (c :: cs) = true := by
    simp [wellFormed, hcons]
  have hfield : fieldText (c :: cs)
      = Nat.toDigits 10 (digitsValue ((c :: cs).takeWhile isdigit)) := by
    unfold fieldText
    rw [if_pos hcons, hst, toInt32_small _ hv, fmtInt_natCast]
  have hafter : afterField (c :: cs)
      = (c :: cs).drop ((c :: cs).takeWhile isdigit).length := by
    unfold afterField
    rw [if_pos hcons, hst]
  refine ⟨hwf, hfield, ?_, ?_⟩
  · intro st
    rw [wakeupLine_wellFormed st _ hwf]
    simp only [lineTokens, hfield, hafter]
  · have hall : keptTokens (C : Int) (wakeupTokens 0 [c :: cs]) = wakeupTokens 0 [c :: cs] := by
      apply keptTokens_all
      rw [wakeupTokens_flatten]
      omega
    obtain ⟨_, h2, _⟩ := wakeupParser_kept m C [c :: cs]
    rw [hall, wakeupTokens_flatten] at h2
    have hm : mergedReason [c :: cs]
        = (Nat.toDigits 10 (digitsValue ((c :: cs).takeWhile isdigit)) ++ [':'])
          ++ reasonText (afterField (c :: cs)) := by
      have e1 : mergedReason [c :: cs] = entryOf (c :: cs) := by
        simp [mergedReason, hwf, List.intercalate]
      have e2 : entryOf (c :: cs)
          = fieldText (c :: cs) ++ ':' :: reasonText (afterField (c :: cs)) := by
        have hflat := lineTokens_flatten 0 (c :: cs)
        simp only [lineTokens, if_true, List.flatten_cons, List.flatten_nil,
          List.append_nil] at hflat
        exact hflat.symm
      rw [e1, e2, hfield]
      simp
    rw [hm, List.length_append, Mem.read_add] at h2
    exact List.append_inj_left' h2 (by simp [Mem.read])

set_option maxRecDepth 100000 in
/-- Witness for C15, amended: the line `0146 sd93\n` into a buffer of 32 bytes. -/
theorem wakeupParser_irq_field_witness :
    fieldText "0146 sd93\n".toList = "146".toList ∧
    (wakeupParser blank 32 ["0146 sd93\n".toList]).1.read 0 4 = "146:".toList := by
  obtain ⟨_, h1, _, h2⟩ := wakeupParser_irq_field blank 32 "0146 sd93\n".toList
    (by decide) (by decide) (by decide)
  have hD : Nat.toDigits 10 (digitsValue ("0146 sd93\n".toList.takeWhile isdigit))
      = "146".toList := by decide
  rw [hD] at h1 h2
  exact ⟨h1, h2⟩

end BatteryStats
